import Mathlib

/-!
Verification development for the graviton Barnes-Hut N-body simulator.

This file gives a shallow embedding of the core spatial data structures and
algorithms of the repository (`src/simulation/quadtree.rs` and
`src/simulation.rs`) and proves or refutes the frozen specification claims
about them.

Modelling conventions:
* `SimFloat` (`f32` in the source) is modelled as `ℚ`; every arithmetic
  operation the embedded code performs (addition, subtraction, multiplication
  by `0.5`/`0.25`, comparison, absolute value) is exact on the dyadic
  rationals involved, so `ℚ` is a faithful carrier for the control flow.
* Rust's `NonZeroU32` handles store `index + 1`; every read site in the
  source immediately computes `.get() - 1`.  The embedding stores the plain
  index (the Rust value minus one), which composes the two steps; this is a
  pure change of representation.
* `Vec` is modelled as `List`, with `List.set` for in-place writes; an
  out-of-range read yields the same value as an empty slot.  All runs that
  the theorems below speak about keep indices in range (see `Quadtree.WF`).
* Rust recursion is unbounded and guarded by the `MAX_DEPTH` check; the
  embedding adds an explicit fuel argument and a distinguished `fuelOut`
  result, which the lemmas below never reach (the depth guard always fires
  first for the executions being analysed).
* `panic!` is modelled as a distinguished `panicked` outcome that leaves the
  state unchanged, since a Rust panic aborts the computation.
* The `color : wgpu::Color` field of `Body` is render-only data that no
  embedded computation reads; it is omitted from the model.
-/

/-- Model of `type SimFloat = f32` (`src/simulation.rs`). -/
abbrev SimFloat := ℚ

/-- Model of `cgmath::Point2<SimFloat>`: a 2D point. -/
structure Point2 where
  x : SimFloat
  y : SimFloat
deriving DecidableEq

/-- Model of `cgmath::Vector2<SimFloat>`; the embedding does not distinguish
points from vectors. -/
abbrev Vector2 := Point2

/-- Model of the `Positioned` trait (`quadtree.rs` lines 19-21). -/
class Positioned (T : Type) where
  position : T → Point2

/-- `MAX_DEPTH` constant (`quadtree.rs` line 17). -/
def MAX_DEPTH : ℕ := 64

/-- Model of the `Quadrant` enumeration (`quadtree.rs` lines 29-35). -/
inductive Quadrant where
  | NW
  | SW
  | NE
  | SE
deriving DecidableEq

/-- The `#[repr(usize)]` discriminant of a quadrant (`NW = 0`, `SW = 1`,
`NE = 2`, `SE = 3`), used as the offset into a twig's child block. -/
def Quadrant.toIdx : Quadrant → ℕ
  | .NW => 0
  | .SW => 1
  | .NE => 2
  | .SE => 3

/-- Model of `Quadrant::from_comparison` (`quadtree.rs` lines 38-55). -/
def Quadrant.from_comparison (element_position node_position : Point2) : Quadrant :=
  if element_position.x < node_position.x then
    if element_position.y < node_position.y then .SW else .NW
  else
    if element_position.y < node_position.y then .SE else .NE

/-- Model of `Quadrant::apply_offset` (`quadtree.rs` lines 57-71): the center
of the child in quadrant `q` of a node centered at `point` at depth `depth`. -/
def Quadrant.apply_offset (q : Quadrant) (point : Point2) (extent : SimFloat)
    (depth : ℕ) : Point2 :=
  let half_extent := 0.5 * extent * (0.5 : SimFloat) ^ depth
  match q with
  | .NW => ⟨point.x - half_extent, point.y + half_extent⟩
  | .SW => ⟨point.x - half_extent, point.y - half_extent⟩
  | .NE => ⟨point.x + half_extent, point.y + half_extent⟩
  | .SE => ⟨point.x + half_extent, point.y - half_extent⟩

/-- Model of `QuadtreeChild` (`quadtree.rs` lines 74-78).  `node i` models
`Node(NonZeroU32::from(i+1))`, i.e. the stored index of the first slot of the
child block; `element i` likewise stores the plain element index. -/
inductive QuadtreeChild where
  | node (i : ℕ)
  | element (i : ℕ)
deriving DecidableEq

/-- Model of `QuadtreeNode<U>` (`quadtree.rs` lines 80-88); `parent_index`
stores the plain parent slot index (Rust stores it plus one). -/
structure QuadtreeNode (U : Type) where
  child_index : QuadtreeChild
  parent_index : ℕ
  data : U
deriving DecidableEq

/-- Model of `QuadtreeElement<T>` (`quadtree.rs` lines 90-97); `leaf_index`
stores the plain leaf slot index when present. -/
structure QuadtreeElement (T : Type) where
  element : T
  leaf_index : Option ℕ
deriving DecidableEq

/-- Model of `Quadtree<T, U>` (`quadtree.rs` lines 111-121). -/
structure Quadtree (T U : Type) where
  extent : SimFloat
  nodes : List (Option (QuadtreeNode U))
  elements : List (QuadtreeElement T)

/-- Model of `Quadtree::new` (`quadtree.rs` lines 128-134). -/
def Quadtree.new (T U : Type) (extent : SimFloat) : Quadtree T U :=
  { extent := extent, nodes := [none], elements := [] }

/-- Model of `Quadtree::clear` (`quadtree.rs` lines 136-141): both arenas are
reset and a single empty root slot is pushed. -/
def Quadtree.clear (t : Quadtree T U) : Quadtree T U :=
  { extent := t.extent, nodes := [none], elements := [] }

/-- Read of `self.nodes[i]`; an out-of-range index reads as an empty slot
(the runs analysed below never read out of range, see `Quadtree.WF`). -/
def Quadtree.nodeAt (t : Quadtree T U) (i : ℕ) : Option (QuadtreeNode U) :=
  (t.nodes[i]?).getD none

/-- The position of element `i`, i.e. `self.elements[i].element.position()`;
out-of-range reads (never performed by the analysed runs) give the origin. -/
def Quadtree.elemPos [Positioned T] (t : Quadtree T U) (i : ℕ) : Point2 :=
  match t.elements[i]? with
  | some e => Positioned.position e.element
  | none => ⟨0, 0⟩

/-- The payload of element `i` (`self.elements[i].element`). -/
def Quadtree.elemAt (t : Quadtree T U) (i : ℕ) : Option T :=
  (t.elements[i]?).map (·.element)

/-- In-place update `self.elements[i].leaf_index = v` (a no-op out of
range, which the analysed runs never perform). -/
def setLeafIndex (l : List (QuadtreeElement T)) (i : ℕ) (v : Option ℕ) :
    List (QuadtreeElement T) :=
  match l[i]? with
  | some e => l.set i { e with leaf_index := v }
  | none => l

/-- Result of `insert_at_node`: Rust's `Result<(), String>` together with the
mutated tree (`&mut self`).  `err` is the `MAX_DEPTH`-exceeded error (the only
`Err` the function produces); `fuelOut` is the modelling artifact for
exhausted fuel and is never produced with the fuel used below. -/
inductive InsRes (T U : Type) where
  | ok (t : Quadtree T U)
  | err (t : Quadtree T U)
  | fuelOut

/-- Model of `Quadtree::insert_at_node` (`quadtree.rs` lines 224-299).
The recursion is structural on the added `fuel` argument; everything else
follows the source line by line.  In the subdivision branch the source
computes `children_index = NonZeroU32::from(nodes.len() + 1)` and later
dereferences it as `get() - 1`; with the plain-index convention this is
`t.nodes.length`. -/
def Quadtree.insert_at_node [Positioned T] [Inhabited U] :
    ℕ → Quadtree T U → ℕ → ℕ → Point2 → ℕ → ℕ → InsRes T U
  | 0, _, _, _, _, _, _ => .fuelOut
  | fuel + 1, t, node_index, parent_index, node_position, depth, element_index =>
    if depth > MAX_DEPTH then
      .err t
    else
      match t.nodeAt node_index with
      | none =>
        -- use empty slot
        let new_leaf : QuadtreeNode U :=
          { child_index := .element element_index
            parent_index := parent_index
            data := default }
        let t1 : Quadtree T U := { t with nodes := t.nodes.set node_index (some new_leaf) }
        let t2 : Quadtree T U :=
          { t1 with elements := setLeafIndex t1.elements element_index (some node_index) }
        .ok t2
      | some node =>
        match node.child_index with
        | .node children_index =>
          -- find correct quadrant and insert there
          let element_pos := t.elemPos element_index
          let quadrant := Quadrant.from_comparison element_pos node_position
          let child_index := children_index + quadrant.toIdx
          let node_position2 :=
            (Quadrant.from_comparison element_pos node_position).apply_offset
              node_position t.extent depth
          Quadtree.insert_at_node fuel t child_index node_index node_position2
            (depth + 1) element_index
        | .element child_element_index =>
          -- subdivide leaf into twig and reinsert into self
          let children_index := t.nodes.length
          let t1 : Quadtree T U :=
            { t with nodes := t.nodes ++ [none, none, none, none] }
          let updated_node : QuadtreeNode U :=
            { node with child_index := .node children_index }
          let t2 : Quadtree T U := { t1 with nodes := t1.nodes.set node_index (some updated_node) }
          match Quadtree.insert_at_node fuel t2 node_index parent_index node_position
              depth element_index with
          | .ok t3 =>
            Quadtree.insert_at_node fuel t3 node_index parent_index node_position
              depth child_element_index
          | r => r

/-- Fuel used by the embedding of `insert`: the call stack of
`insert_at_node` is at most two frames per depth level and the depth guard
fires at `MAX_DEPTH + 1 = 65`, so 200 units are never exhausted. -/
def INSERT_FUEL : ℕ := 200

/-- Outcome of `Quadtree::insert` / `Simulation::advance`: success, the
depth-exceeded `Err`, a panic (the out-of-bounds `panic!`), or the fuel
artifact. -/
inductive InsertOutcome where
  | ok
  | err
  | panicked
  | fuelOut
deriving DecidableEq

/-- Model of `Quadtree::insert` (`quadtree.rs` lines 159-172).  The source
panics when the element lies outside the root extent; this is modelled as the
`panicked` outcome with the tree unchanged.  Otherwise the element is pushed
into the element arena and `insert_at_node` runs from the root. -/
def Quadtree.insert [Positioned T] [Inhabited U] (t : Quadtree T U) (element : T) :
    InsertOutcome × Quadtree T U :=
  if |(Positioned.position element).x| > t.extent ∨
     |(Positioned.position element).y| > t.extent then
    (.panicked, t)
  else
    let element_index := t.elements.length
    let t1 : Quadtree T U :=
      { t with elements := t.elements ++ [{ element := element, leaf_index := none }] }
    match Quadtree.insert_at_node INSERT_FUEL t1 0 0 ⟨0, 0⟩ 0 element_index with
    | .ok t2 => (.ok, t2)
    | .err t2 => (.err, t2)
    | .fuelOut => (.fuelOut, t1)

/-- Sequentially insert a list of elements, collecting each outcome. -/
def Quadtree.insertList [Positioned T] [Inhabited U] (t : Quadtree T U) :
    List T → List InsertOutcome × Quadtree T U
  | [] => ([], t)
  | e :: rest =>
    let r := t.insert e
    let r2 := Quadtree.insertList r.2 rest
    (r.1 :: r2.1, r2.2)

/-- Model of `Body` (`src/simulation.rs` lines 19-26); the render-only
`color` field is omitted (no embedded computation reads it). -/
structure Body where
  position : Point2
  velocity : Vector2
  mass : SimFloat
  radius : SimFloat
deriving DecidableEq

instance : Positioned Body := ⟨Body.position⟩

/-- Model of `Pseudobody` (`src/simulation.rs` lines 54-58). -/
structure Pseudobody where
  position : Point2
  mass : SimFloat
deriving DecidableEq

/-- Model of `Pseudobody::new`. -/
def Pseudobody.new (position : Point2) (mass : SimFloat) : Pseudobody :=
  ⟨position, mass⟩

/-- Model of `impl Default for Pseudobody` (`src/simulation.rs` lines 69-76). -/
instance : Inhabited Pseudobody := ⟨⟨⟨0, 0⟩, 0⟩⟩

/-- Model of `Simulation` (`src/simulation.rs` lines 84-91). -/
structure Simulation where
  bodies : List Body
  quadtree : Quadtree Body Pseudobody
  pseudobody_threshold : SimFloat

/-- Write `self.quadtree.nodes_mut()[i].as_mut().unwrap().data = d` (the call
sites guarantee the slot is occupied). -/
def setNodeData (t : Quadtree Body Pseudobody) (i : ℕ) (d : Pseudobody) :
    Quadtree Body Pseudobody :=
  match t.nodeAt i with
  | some n => { t with nodes := t.nodes.set i (some { n with data := d }) }
  | none => t

/-- The mass of element `i` (`self.quadtree.elements()[i].element.mass`);
out-of-range reads (never performed here) give 0. -/
def Quadtree.elemMass (t : Quadtree Body Pseudobody) (i : ℕ) : SimFloat :=
  match t.elements[i]? with
  | some e => e.element.mass
  | none => 0

/-- One step of the accumulation loop body in
`calculate_pseudobody_from_node`: `child_mass_sum += child_data.mass;
child_position_sum += child_data.position.to_vec()` guarded by
`if let Some(child_node) = ...`. -/
def accumChild (t : Quadtree Body Pseudobody) (i : ℕ) (acc : SimFloat × Point2) :
    SimFloat × Point2 :=
  match t.nodeAt i with
  | some child_node =>
    (acc.1 + child_node.data.mass,
      ⟨acc.2.x + child_node.data.position.x, acc.2.y + child_node.data.position.y⟩)
  | none => acc

/-- Model of `Simulation::calculate_pseudobody_from_node`
(`src/simulation.rs` lines 142-179).  The method mutates
`self.quadtree` only, so it is embedded as a function on the quadtree.  Note
the source multiplies both accumulated sums by `0.25` before storing them
(`child_mass_sum *= 0.25; child_position_sum *= 0.25;` lines 163-164). -/
def calculate_pseudobody_from_node :
    ℕ → Quadtree Body Pseudobody → ℕ → Quadtree Body Pseudobody
  | 0, t, _ => t
  | fuel + 1, t, node_index =>
    match t.nodeAt node_index with
    | none => t
    | some node =>
      match node.child_index with
      | .node children_index =>
        let t0 := calculate_pseudobody_from_node fuel t (children_index + 0)
        let acc0 := accumChild t0 (children_index + 0) (0, ⟨0, 0⟩)
        let t1 := calculate_pseudobody_from_node fuel t0 (children_index + 1)
        let acc1 := accumChild t1 (children_index + 1) acc0
        let t2 := calculate_pseudobody_from_node fuel t1 (children_index + 2)
        let acc2 := accumChild t2 (children_index + 2) acc1
        let t3 := calculate_pseudobody_from_node fuel t2 (children_index + 3)
        let acc3 := accumChild t3 (children_index + 3) acc2
        let child_mass_sum := acc3.1 * 0.25
        let child_position_sum : Point2 := ⟨acc3.2.x * 0.25, acc3.2.y * 0.25⟩
        setNodeData t3 node_index (Pseudobody.new child_position_sum child_mass_sum)
      | .element element_index =>
        let element_position := t.elemPos element_index
        let element_mass := t.elemMass element_index
        setNodeData t node_index (Pseudobody.new element_position element_mass)

/-- Fuel for the pseudobody computation; the trees built below have depth at
most `MAX_DEPTH + 1`, far below 200. -/
def CALC_FUEL : ℕ := 200

/-- The per-step tree rebuild loop in `Simulation::advance` (lines 114-117):
insert every body, returning early (`?`) on the first failure. -/
def rebuildLoop (t : Quadtree Body Pseudobody) :
    List Body → InsertOutcome × Quadtree Body Pseudobody
  | [] => (.ok, t)
  | b :: rest =>
    match t.insert b with
    | (.ok, t2) => rebuildLoop t2 rest
    | (o, t2) => (o, t2)

/-- Model of `Simulation::advance` (`src/simulation.rs` lines 109-132).  The
source clears and rebuilds the quadtree, computes the pseudobodies, and then
contains only a stubbed force-computation loop (the loop body is commented
out and `forces` is never used); no body is ever modified and `dt` is unused. -/
def Simulation.advance (s : Simulation) (dt : SimFloat) : InsertOutcome × Simulation :=
  match rebuildLoop s.quadtree.clear s.bodies with
  | (.ok, t) =>
    let t2 := calculate_pseudobody_from_node CALC_FUEL t 0
    (.ok, { s with quadtree := t2 })
  | (o, t) => (o, { s with quadtree := t })

/-- The half-width of a node rectangle at depth `d` in a tree of root extent
`ext`: the root covers `[-ext, ext]` on both axes and each level halves it. -/
def rectHalf (ext : SimFloat) (d : ℕ) : SimFloat := ext * (0.5 : SimFloat) ^ d

/-- Membership of a point in the (closed) rectangle of a node centered at `c`
at depth `d`. -/
def inRect (ext : SimFloat) (p c : Point2) (d : ℕ) : Prop :=
  |p.x - c.x| ≤ rectHalf ext d ∧ |p.y - c.y| ≤ rectHalf ext d

/-- Observation function: the leaves of the tree reachable from slot `idx`,
together with the center and depth of their node rectangle.  The recursion
and the child centers mirror `Quadtree::traverse_at_node` (`quadtree.rs`
lines 184-222, children visited in quadrant order NW, SW, NE, SE); the
visitor and the depth-error plumbing are elided since this is a read-only
observation used only on trees of bounded depth. -/
def leafGeoms (ext : SimFloat) (nodes : List (Option (QuadtreeNode U))) :
    ℕ → ℕ → Point2 → ℕ → List (ℕ × Point2 × ℕ)
  | 0, _, _, _ => []
  | fuel + 1, idx, c, d =>
    match (nodes[idx]?).getD none with
    | none => []
    | some n =>
      match n.child_index with
      | .element e => [(e, c, d)]
      | .node k =>
        let h := 0.5 * ext * (0.5 : SimFloat) ^ d
        leafGeoms ext nodes fuel k ⟨c.x - h, c.y + h⟩ (d + 1) ++
        leafGeoms ext nodes fuel (k + 1) ⟨c.x - h, c.y - h⟩ (d + 1) ++
        leafGeoms ext nodes fuel (k + 2) ⟨c.x + h, c.y + h⟩ (d + 1) ++
        leafGeoms ext nodes fuel (k + 3) ⟨c.x + h, c.y - h⟩ (d + 1)

@[simp] theorem position_body (b : Body) : Positioned.position b = b.position := rfl

theorem length_setLeafIndex (l : List (QuadtreeElement T)) (i : ℕ) (v : Option ℕ) :
    (setLeafIndex l i v).length = l.length := by
  unfold setLeafIndex
  cases h : l[i]? <;> simp

theorem elemAt_setLeafIndex (l : List (QuadtreeElement T)) (i : ℕ) (v : Option ℕ) (j : ℕ) :
    ((setLeafIndex l i v)[j]?).map (·.element) = (l[j]?).map (·.element) := by
  unfold setLeafIndex
  cases h : l[i]? with
  | none => rfl
  | some e =>
    by_cases hij : i = j
    · subst hij
      have hlt : i < l.length := by
        by_contra hge
        rw [List.getElem?_eq_none (by omega)] at h
        exact Option.noConfusion h
      rw [List.getElem?_set_self hlt, h]
      rfl
    · rw [List.getElem?_set_ne hij]

/-- `elemPos` is determined by `elemAt`. -/
theorem elemPos_eq_elemAt [Positioned T] (t : Quadtree T U) (i : ℕ) :
    t.elemPos i = match t.elemAt i with
      | some x => Positioned.position x
      | none => ⟨0, 0⟩ := by
  unfold Quadtree.elemPos Quadtree.elemAt
  cases t.elements[i]? <;> rfl


/-- The tree after the subdivision step of `insert_at_node` (lines 270-283):
four empty child slots are pushed and the leaf at `idx` is turned into a twig
whose child block starts at the old arena length. -/
def subdivTree (t : Quadtree T U) (idx : ℕ) (node : QuadtreeNode U) : Quadtree T U :=
  let newNodes := (t.nodes ++ [none, none, none, none]).set idx
    (some { node with child_index := .node t.nodes.length })
  { t with nodes := newNodes }

/-- The tree after the empty-slot step of `insert_at_node` (lines 237-251):
a new leaf for element `e` is written at `idx` and the element's `leaf_index`
back-pointer is set. -/
def leafTree [Inhabited U] (t : Quadtree T U) (idx par e : ℕ) : Quadtree T U :=
  let newNodes := t.nodes.set idx
    (some { child_index := .element e, parent_index := par, data := default })
  { t with nodes := newNodes, elements := setLeafIndex t.elements e (some idx) }

theorem insert_at_node_depth [Positioned T] [Inhabited U] {fuel : ℕ} {t : Quadtree T U}
    {idx par : ℕ} {c : Point2} {d e : ℕ} (hd : d > MAX_DEPTH) :
    Quadtree.insert_at_node (fuel + 1) t idx par c d e = .err t := by
  rw [Quadtree.insert_at_node, if_pos hd]

theorem insert_at_node_empty [Positioned T] [Inhabited U] {fuel : ℕ} {t : Quadtree T U}
    {idx par : ℕ} {c : Point2} {d e : ℕ} (hd : ¬d > MAX_DEPTH)
    (hn : t.nodeAt idx = none) :
    Quadtree.insert_at_node (fuel + 1) t idx par c d e = .ok (leafTree t idx par e) := by
  rw [Quadtree.insert_at_node, if_neg hd, hn]
  rfl

theorem insert_at_node_twig [Positioned T] [Inhabited U] {fuel : ℕ} {t : Quadtree T U}
    {idx par : ℕ} {c : Point2} {d e : ℕ} {node : QuadtreeNode U} {k : ℕ}
    (hd : ¬d > MAX_DEPTH) (hn : t.nodeAt idx = some node)
    (hc : node.child_index = .node k) :
    Quadtree.insert_at_node (fuel + 1) t idx par c d e =
      Quadtree.insert_at_node fuel t
        (k + (Quadrant.from_comparison (t.elemPos e) c).toIdx) idx
        ((Quadrant.from_comparison (t.elemPos e) c).apply_offset c t.extent d)
        (d + 1) e := by
  rw [Quadtree.insert_at_node, if_neg hd, hn]
  simp only [hc]

theorem insert_at_node_subdiv [Positioned T] [Inhabited U] {fuel : ℕ} {t : Quadtree T U}
    {idx par : ℕ} {c : Point2} {d e : ℕ} {node : QuadtreeNode U} {j : ℕ}
    (hd : ¬d > MAX_DEPTH) (hn : t.nodeAt idx = some node)
    (hc : node.child_index = .element j) :
    Quadtree.insert_at_node (fuel + 1) t idx par c d e =
      match Quadtree.insert_at_node fuel (subdivTree t idx node) idx par c d e with
      | .ok t3 => Quadtree.insert_at_node fuel t3 idx par c d j
      | r => r := by
  rw [Quadtree.insert_at_node, if_neg hd, hn]
  simp only [hc]
  rfl

/-- State preserved by `insert_at_node` on the `ok` and `err` paths: the
extent, the element count, every element payload (only `leaf_index` fields
are rewritten), and the node arena never shrinks. -/
theorem insert_at_node_preserves [Positioned T] [Inhabited U] :
    ∀ (fuel : ℕ) (t : Quadtree T U) (idx par : ℕ) (c : Point2) (d e : ℕ)
      (t' : Quadtree T U),
      (Quadtree.insert_at_node fuel t idx par c d e = .ok t' ∨
        Quadtree.insert_at_node fuel t idx par c d e = .err t') →
      t'.extent = t.extent ∧ t'.elements.length = t.elements.length ∧
        (∀ i, t'.elemAt i = t.elemAt i) ∧ t.nodes.length ≤ t'.nodes.length := by
  intro fuel
  induction fuel with
  | zero =>
    intro t idx par c d e t' h
    rcases h with h | h <;> exact InsRes.noConfusion h
  | succ fuel ih =>
    intro t idx par c d e t' h
    by_cases hd : d > MAX_DEPTH
    · rw [insert_at_node_depth hd] at h
      rcases h with h | h
      · exact InsRes.noConfusion h
      · obtain rfl : t = t' := by cases h; rfl
        exact ⟨rfl, rfl, fun _ => rfl, le_refl _⟩
    · cases hn : t.nodeAt idx with
      | none =>
        rw [insert_at_node_empty hd hn] at h
        rcases h with h | h
        · obtain rfl : leafTree t idx par e = t' := by cases h; rfl
          refine ⟨rfl, ?_, ?_, ?_⟩
          · simp [leafTree, length_setLeafIndex]
          · intro i
            show ((setLeafIndex t.elements e (some idx))[i]?).map (·.element) = _
            exact elemAt_setLeafIndex _ _ _ _
          · simp [leafTree]
        · exact InsRes.noConfusion h
      | some node =>
        cases hc : node.child_index with
        | node k =>
          rw [insert_at_node_twig hd hn hc] at h
          exact ih _ _ _ _ _ _ _ h
        | element j =>
          rw [insert_at_node_subdiv hd hn hc] at h
          have hsub : (subdivTree t idx node).extent = t.extent ∧
              (subdivTree t idx node).elements.length = t.elements.length ∧
              (∀ i, (subdivTree t idx node).elemAt i = t.elemAt i) ∧
              t.nodes.length ≤ (subdivTree t idx node).nodes.length := by
            refine ⟨rfl, rfl, fun _ => rfl, ?_⟩
            simp [subdivTree]
          rcases hrec : Quadtree.insert_at_node fuel (subdivTree t idx node)
              idx par c d e with t3 | t3 | _
          · rw [hrec] at h
            have h1 := ih _ _ _ _ _ _ _ (Or.inl hrec)
            have h2 := ih _ _ _ _ _ _ _ h
            refine ⟨h2.1.trans (h1.1.trans hsub.1),
              h2.2.1.trans (h1.2.1.trans hsub.2.1), ?_, ?_⟩
            · intro i
              exact (h2.2.2.1 i).trans ((h1.2.2.1 i).trans (hsub.2.2.1 i))
            · exact le_trans hsub.2.2.2 (le_trans h1.2.2.2 h2.2.2.2)
          · rw [hrec] at h
            rcases h with h | h
            · exact InsRes.noConfusion h
            · obtain rfl : t3 = t' := by cases h; rfl
              have h1 := ih _ _ _ _ _ _ _ (Or.inr hrec)
              exact ⟨h1.1.trans hsub.1, h1.2.1.trans hsub.2.1,
                fun i => (h1.2.2.1 i).trans (hsub.2.2.1 i),
                le_trans hsub.2.2.2 h1.2.2.2⟩
          · rw [hrec] at h
            rcases h with h | h <;> exact InsRes.noConfusion h

/-- `insert_at_node` preserves every element position on the `ok`/`err` paths. -/
theorem insert_at_node_elemPos [Positioned T] [Inhabited U] {fuel : ℕ}
    {t : Quadtree T U} {idx par : ℕ} {c : Point2} {d e : ℕ} {t' : Quadtree T U}
    (h : Quadtree.insert_at_node fuel t idx par c d e = .ok t' ∨
      Quadtree.insert_at_node fuel t idx par c d e = .err t') :
    ∀ i, t'.elemPos i = t.elemPos i := by
  intro i
  rw [elemPos_eq_elemAt, elemPos_eq_elemAt,
    (insert_at_node_preserves fuel t idx par c d e t' h).2.2.1 i]

/-- The element push at the start of `Quadtree::insert` (line 168). -/
def pushElem (t : Quadtree T U) (el : T) : Quadtree T U :=
  { t with elements := t.elements ++ [{ element := el, leaf_index := none }] }

theorem insert_eq_of_inbounds [Positioned T] [Inhabited U] (t : Quadtree T U) (el : T)
    (hb : ¬(|(Positioned.position el).x| > t.extent ∨
        |(Positioned.position el).y| > t.extent)) :
    t.insert el =
      match Quadtree.insert_at_node INSERT_FUEL (pushElem t el) 0 0 ⟨0, 0⟩ 0
          t.elements.length with
      | .ok t2 => (.ok, t2)
      | .err t2 => (.err, t2)
      | .fuelOut => (.fuelOut, pushElem t el) := by
  rw [Quadtree.insert, if_neg hb]
  rfl

theorem pushElem_elemAt_last (t : Quadtree T U) (el : T) :
    (pushElem t el).elemAt t.elements.length = some el := by
  unfold pushElem Quadtree.elemAt
  simp

theorem pushElem_elemPos_last [Positioned T] (t : Quadtree T U) (el : T) :
    (pushElem t el).elemPos t.elements.length = Positioned.position el := by
  unfold pushElem Quadtree.elemPos
  simp

theorem pushElem_elemPos_old [Positioned T] (t : Quadtree T U) (el : T) (i : ℕ)
    (h : i < t.elements.length) :
    (pushElem t el).elemPos i = t.elemPos i := by
  unfold pushElem Quadtree.elemPos
  simp only []
  rw [List.getElem?_append_left h]

/-- The quadrant classification the specification describes: `x ≥ center.x`
is East, `y ≥ center.y` is North, the same non-strict tie-break on both
axes.  This definition follows the spec's words and is compared against the
source's `from_comparison` below. -/
def Quadrant.classifySpec (element_position node_position : Point2) : Quadrant :=
  if node_position.x ≤ element_position.x then
    if node_position.y ≤ element_position.y then .NE else .SE
  else
    if node_position.y ≤ element_position.y then .NW else .SW

/-- C7: quadrant classification is a total, deterministic function (it is a
pure Lean function of its two arguments, so totality and repeatability are
structural), and it uses exactly the tie-break the spec states: `x ≥ center`
is East else West, `y ≥ center` is North else South, on both axes. -/
theorem from_comparison_total_spec_tiebreak (ep np : Point2) :
    Quadrant.from_comparison ep np = Quadrant.classifySpec ep np := by
  unfold Quadrant.from_comparison Quadrant.classifySpec
  rcases lt_or_le ep.x np.x with hx | hx
  · rw [if_pos hx, if_neg (not_le.mpr hx)]
    rcases lt_or_le ep.y np.y with hy | hy
    · rw [if_pos hy, if_neg (not_le.mpr hy)]
    · rw [if_neg (not_lt.mpr hy), if_pos hy]
  · rw [if_neg (not_lt.mpr hx), if_pos hx]
    rcases lt_or_le ep.y np.y with hy | hy
    · rw [if_pos hy, if_neg (not_le.mpr hy)]
    · rw [if_neg (not_lt.mpr hy), if_pos hy]

/-- C8: `clear()` resets the tree to exactly the state `new` builds (same
extent, one empty root slot, no elements), so clearing and re-inserting any
sequence of points yields a tree identical (hence isomorphic in shape) to a
fresh tree of the same extent built from the same points in the same order. -/
theorem clear_then_insert_eq_fresh [Positioned T] [Inhabited U]
    (t : Quadtree T U) (ps : List T) :
    Quadtree.insertList t.clear ps = Quadtree.insertList (Quadtree.new T U t.extent) ps := rfl

/-- C2: `Simulation::advance` never touches the body set: it clears and
rebuilds the quadtree and computes the pseudobodies, but the
position-integration and velocity-integration steps the spec describes are
absent (the force loop is an empty stub), so the bodies after `advance` are
exactly the bodies before, for every time step `dt`. -/
theorem advance_leaves_bodies_unchanged (s : Simulation) (dt : SimFloat) :
    ((s.advance dt).2).bodies = s.bodies := by
  unfold Simulation.advance
  rcases h : rebuildLoop s.quadtree.clear s.bodies with ⟨o, t⟩
  cases o <;> simp [h]

/-- A body outside the root extent of a radius-2 tree, used to exhibit the
out-of-bounds behaviour of `insert`. -/
def bOOB : Body := { position := ⟨3, 0⟩, velocity := ⟨0, 0⟩, mass := 1, radius := 1 }

/-- C3 counterexample: inserting an element whose `|x|` exceeds the extent
makes `Quadtree::insert` panic (`panic!` at `quadtree.rs` line 164); it does
not return an error value, refuting the claim that out-of-bounds insertion
returns an explicit `OutOfBounds` error instead of panicking. -/
theorem insert_out_of_bounds_counterexample :
    ((Quadtree.new Body Pseudobody 2).insert bOOB).1 = InsertOutcome.panicked ∧
      ((Quadtree.new Body Pseudobody 2).insert bOOB).1 ≠ InsertOutcome.err := by
  have h : (Quadtree.new Body Pseudobody 2).insert bOOB =
      (InsertOutcome.panicked, Quadtree.new Body Pseudobody 2) := by
    rw [Quadtree.insert, if_pos]
    rw [Quadtree.new]
    norm_num [bOOB]
  rw [h]
  exact ⟨rfl, by simp⟩

/-- C3 (amended): for every element whose position has `|x| > extent` or
`|y| > extent`, `Quadtree::insert` panics (modelled as the `panicked`
outcome, leaving the tree unchanged) rather than returning an error value. -/
theorem insert_out_of_bounds_panics [Positioned T] [Inhabited U]
    (t : Quadtree T U) (el : T)
    (h : |(Positioned.position el).x| > t.extent ∨
      |(Positioned.position el).y| > t.extent) :
    t.insert el = (InsertOutcome.panicked, t) := by
  rw [Quadtree.insert, if_pos h]

/-- Witness for C3's amended theorem at the concrete body `bOOB`. -/
theorem insert_out_of_bounds_panics_witness :
    (|(Positioned.position bOOB).x| > (Quadtree.new Body Pseudobody 2).extent ∨
      |(Positioned.position bOOB).y| > (Quadtree.new Body Pseudobody 2).extent) ∧
    (Quadtree.new Body Pseudobody 2).insert bOOB =
      (InsertOutcome.panicked, Quadtree.new Body Pseudobody 2) :=
  ⟨by rw [Quadtree.new]; norm_num [bOOB],
    insert_out_of_bounds_panics _ _ (by rw [Quadtree.new]; norm_num [bOOB])⟩

/-- C10: when `Quadtree::insert` fails with the depth-exceeded error, the
tree is left modified: the failing element has still been appended to the
element arena (the count grows by one and slot `elements.len()` holds it),
and the node arena has not shrunk (child blocks allocated during subdivision
before the failure remain); no rollback is performed. -/
theorem insert_err_no_rollback [Positioned T] [Inhabited U]
    (t : Quadtree T U) (el : T) (h : (t.insert el).1 = InsertOutcome.err) :
    (t.insert el).2.elements.length = t.elements.length + 1 ∧
      (t.insert el).2.elemAt t.elements.length = some el ∧
      t.nodes.length ≤ (t.insert el).2.nodes.length := by
  by_cases hb : |(Positioned.position el).x| > t.extent ∨
      |(Positioned.position el).y| > t.extent
  · rw [insert_out_of_bounds_panics t el hb] at h
    exact absurd h (by simp)
  · rw [insert_eq_of_inbounds t el hb] at h ⊢
    rcases hrec : Quadtree.insert_at_node INSERT_FUEL (pushElem t el) 0 0 ⟨0, 0⟩ 0
        t.elements.length with t2 | t2 | _
    · rw [hrec] at h
      exact absurd h (by simp)
    · show t2.elements.length = t.elements.length + 1 ∧
        t2.elemAt t.elements.length = some el ∧ t.nodes.length ≤ t2.nodes.length
      have hp := insert_at_node_preserves INSERT_FUEL (pushElem t el) 0 0 ⟨0, 0⟩ 0
        t.elements.length t2 (Or.inr hrec)
      refine ⟨?_, ?_, ?_⟩
      · rw [hp.2.1]
        simp [pushElem]
      · rw [hp.2.2.1 t.elements.length]
        exact pushElem_elemAt_last t el
      · exact hp.2.2.2
    · rw [hrec] at h
      exact absurd h (by simp)

/-- Unit-mass body at (-1,-1). -/
def bSW : Body := { position := ⟨-1, -1⟩, velocity := ⟨0, 0⟩, mass := 1, radius := 1 }

/-- Unit-mass body at (1,1). -/
def bNE : Body := { position := ⟨1, 1⟩, velocity := ⟨0, 0⟩, mass := 1, radius := 1 }

/-- Mass-1 body at (-1,1). -/
def bNW : Body := { position := ⟨-1, 1⟩, velocity := ⟨0, 0⟩, mass := 1, radius := 1 }

/-- Mass-3 body at (1,1). -/
def bNE3 : Body := { position := ⟨1, 1⟩, velocity := ⟨0, 0⟩, mass := 3, radius := 1 }

/-- Modelled from the spec (section 4.3), for comparison with the code's
aggregation: for a twig, total mass is the sum of the children's aggregate
masses and the centroid is the mass-weighted average of the children's
centroids, with a zero-mass aggregate (and no division) when everything is
empty. -/
def specTwigAggregate (children : List Pseudobody) : Pseudobody :=
  let m := (children.map (·.mass)).sum
  if m = 0 then ⟨⟨0, 0⟩, 0⟩
  else ⟨⟨(children.map (fun c => c.mass * c.position.x)).sum / m,
          (children.map (fun c => c.mass * c.position.y)).sum / m⟩, m⟩

/-- C1: evaluating the code's aggregation on the tree built from two
unit-mass bodies at (-1,-1) and (1,1) (root extent 2).  The root twig's two
occupied children each aggregate to mass 1, yet the root aggregate mass is
1/2, not 2: `calculate_pseudobody_from_node` multiplies the accumulated child
mass sum by 0.25 (`simulation.rs` line 163), so neither does the root mass
equal the total inserted mass nor do child masses sum to the twig mass. -/
theorem calc_pseudobody_mass_not_conserved :
    (((calculate_pseudobody_from_node CALC_FUEL
        ((Quadtree.new Body Pseudobody 2).insertList [bSW, bNE]).2 0).nodeAt 0).map
      (fun n => n.data.mass)) = some (1/2) ∧
    bSW.mass + bNE.mass = 2 ∧ ((1 : ℚ)/2) ≠ 2 := by
  refine ⟨?_, by norm_num [bSW, bNE], by norm_num⟩
  norm_num [Quadtree.insertList, Quadtree.insert, Quadtree.new, bSW, bNE, INSERT_FUEL,
    Quadtree.insert_at_node, MAX_DEPTH, Quadtree.nodeAt, Quadtree.elemPos,
    setLeafIndex, Quadrant.from_comparison, Quadrant.apply_offset, Quadrant.toIdx,
    calculate_pseudobody_from_node, CALC_FUEL, accumChild, setNodeData,
    Quadtree.elemMass, Pseudobody.new]

/-- C4: evaluating the code's aggregation on the tree built from a mass-1
body at (-1,1) and a mass-3 body at (1,1) (root extent 2).  The code stores
the root centroid (0, 1/2) — one quarter of the unweighted sum of the child
centroids (`simulation.rs` lines 159, 164) — while the spec's mass-weighted
average of the same children is (1/2, 1) with total mass 4; there is no mass
weighting and no zero-mass-guarded division anywhere in the code's twig
combination. -/
theorem calc_pseudobody_centroid_unweighted :
    (((calculate_pseudobody_from_node CALC_FUEL
        ((Quadtree.new Body Pseudobody 2).insertList [bNW, bNE3]).2 0).nodeAt 0).map
      (fun n => n.data)) = some (Pseudobody.new ⟨0, 1/2⟩ 1) ∧
    specTwigAggregate [⟨⟨-1, 1⟩, 1⟩, ⟨⟨1, 1⟩, 3⟩] = Pseudobody.new ⟨1/2, 1⟩ 4 ∧
    (Pseudobody.new (⟨0, 1/2⟩ : Point2) 1).position ≠
      (Pseudobody.new (⟨1/2, 1⟩ : Point2) 4).position := by
  refine ⟨?_, ?_, ?_⟩
  · norm_num [Quadtree.insertList, Quadtree.insert, Quadtree.new, bNW, bNE3, INSERT_FUEL,
      Quadtree.insert_at_node, MAX_DEPTH, Quadtree.nodeAt, Quadtree.elemPos,
      setLeafIndex, Quadrant.from_comparison, Quadrant.apply_offset, Quadrant.toIdx,
      calculate_pseudobody_from_node, CALC_FUEL, accumChild, setNodeData,
      Quadtree.elemMass, Pseudobody.new]
  · norm_num [specTwigAggregate, Pseudobody.new]
  · intro h
    have hx := congrArg Point2.x h
    norm_num [Pseudobody.new] at hx

theorem nodeAt_leafTree_self [Inhabited U] (t : Quadtree T U) (idx par e : ℕ)
    (hlt : idx < t.nodes.length) :
    (leafTree t idx par e).nodeAt idx =
      some { child_index := .element e, parent_index := par, data := default } := by
  unfold leafTree Quadtree.nodeAt
  simp only []
  rw [List.getElem?_set_self hlt]
  rfl

theorem nodeAt_leafTree_ne [Inhabited U] (t : Quadtree T U) (idx par e j : ℕ)
    (h : idx ≠ j) : (leafTree t idx par e).nodeAt j = t.nodeAt j := by
  unfold leafTree Quadtree.nodeAt
  simp only []
  rw [List.getElem?_set_ne h]

theorem nodeAt_subdivTree_self (t : Quadtree T U) (idx : ℕ) (node : QuadtreeNode U)
    (hlt : idx < t.nodes.length) :
    (subdivTree t idx node).nodeAt idx =
      some { node with child_index := .node t.nodes.length } := by
  unfold subdivTree Quadtree.nodeAt
  simp only []
  rw [List.getElem?_set_self (by simp; omega)]
  rfl

theorem nodeAt_subdivTree_ne (t : Quadtree T U) (idx : ℕ) (node : QuadtreeNode U)
    (j : ℕ) (h : idx ≠ j) : (subdivTree t idx node).nodeAt j = t.nodeAt j := by
  unfold subdivTree Quadtree.nodeAt
  simp only []
  rw [List.getElem?_set_ne h]
  by_cases hj : j < t.nodes.length
  · rw [List.getElem?_append_left hj]
  · rw [List.getElem?_append_right (by omega)]
    have hnone : t.nodes[j]? = none := List.getElem?_eq_none (by omega)
    rw [hnone]
    rcases Nat.lt_or_ge (j - t.nodes.length) 4 with h4 | h4
    · interval_cases h5 : (j - t.nodes.length) <;> rfl
    · rw [List.getElem?_eq_none (by simp; omega)]

theorem nodeAt_lt_length (t : Quadtree T U) (j : ℕ) (n : QuadtreeNode U)
    (h : t.nodeAt j = some n) : j < t.nodes.length := by
  by_contra hge
  unfold Quadtree.nodeAt at h
  rw [List.getElem?_eq_none (by omega)] at h
  exact Option.noConfusion h

/-- The structural invariant of the arena (C9): every occupied slot is either
a leaf holding exactly one valid element index, or a twig whose child pointer
addresses a block of four child slots that all lie inside the node arena
(contiguous by construction, addressed by quadrant offsets 0..3). -/
def Quadtree.WF (t : Quadtree T U) : Prop :=
  (∀ j e par u, t.nodeAt j = some ⟨.element e, par, u⟩ → e < t.elements.length) ∧
  (∀ j k par u, t.nodeAt j = some ⟨.node k, par, u⟩ → k + 4 ≤ t.nodes.length)

theorem WF_leafTree [Inhabited U] {t : Quadtree T U} (hwf : t.WF) {idx par e : ℕ}
    (hn : t.nodeAt idx = none) (he : e < t.elements.length) :
    (leafTree t idx par e).WF := by
  have hlen : (leafTree t idx par e).elements.length = t.elements.length := by
    simp [leafTree, length_setLeafIndex]
  have hnlen : (leafTree t idx par e).nodes.length = t.nodes.length := by
    simp [leafTree]
  constructor
  · intro j e2 par2 u2 hj
    rw [hlen]
    by_cases hij : idx = j
    · subst hij
      by_cases hlt : idx < t.nodes.length
      · rw [nodeAt_leafTree_self t idx par e hlt] at hj
        cases hj
        exact he
      · have := nodeAt_lt_length _ _ _ hj
        rw [hnlen] at this
        exact absurd this hlt
    · rw [nodeAt_leafTree_ne t idx par e j hij] at hj
      exact hwf.1 j e2 par2 u2 hj
  · intro j k par2 u2 hj
    rw [hnlen]
    by_cases hij : idx = j
    · subst hij
      by_cases hlt : idx < t.nodes.length
      · rw [nodeAt_leafTree_self t idx par e hlt] at hj
        cases hj
      · have := nodeAt_lt_length _ _ _ hj
        rw [hnlen] at this
        exact absurd this hlt
    · rw [nodeAt_leafTree_ne t idx par e j hij] at hj
      exact hwf.2 j k par2 u2 hj

theorem WF_subdivTree {t : Quadtree T U} (hwf : t.WF) {idx : ℕ}
    {node : QuadtreeNode U} (hn : t.nodeAt idx = some node) :
    (subdivTree t idx node).WF := by
  have hidx := nodeAt_lt_length _ _ _ hn
  have hnlen : (subdivTree t idx node).nodes.length = t.nodes.length + 4 := by
    simp [subdivTree]
  have helen : (subdivTree t idx node).elements.length = t.elements.length := rfl
  constructor
  · intro j e2 par2 u2 hj
    rw [helen]
    by_cases hij : idx = j
    · subst hij
      rw [nodeAt_subdivTree_self t idx node hidx] at hj
      cases hj
    · rw [nodeAt_subdivTree_ne t idx node j hij] at hj
      exact hwf.1 j e2 par2 u2 hj
  · intro j k par2 u2 hj
    rw [hnlen]
    by_cases hij : idx = j
    · subst hij
      rw [nodeAt_subdivTree_self t idx node hidx] at hj
      cases hj
      omega
    · rw [nodeAt_subdivTree_ne t idx node j hij] at hj
      have := hwf.2 j k par2 u2 hj
      omega

/-- `insert_at_node` preserves the arena invariant whenever the inserted
element index is in range. -/
theorem insert_at_node_WF [Positioned T] [Inhabited U] :
    ∀ (fuel : ℕ) (t : Quadtree T U) (idx par : ℕ) (c : Point2) (d e : ℕ)
      (t' : Quadtree T U),
      (Quadtree.insert_at_node fuel t idx par c d e = .ok t' ∨
        Quadtree.insert_at_node fuel t idx par c d e = .err t') →
      t.WF → e < t.elements.length → t'.WF := by
  intro fuel
  induction fuel with
  | zero =>
    intro t idx par c d e t' h
    rcases h with h | h <;> exact InsRes.noConfusion h
  | succ fuel ih =>
    intro t idx par c d e t' h hwf he
    by_cases hd : d > MAX_DEPTH
    · rw [insert_at_node_depth hd] at h
      rcases h with h | h
      · exact InsRes.noConfusion h
      · obtain rfl : t = t' := by cases h; rfl
        exact hwf
    · cases hn : t.nodeAt idx with
      | none =>
        rw [insert_at_node_empty hd hn] at h
        rcases h with h | h
        · obtain rfl : leafTree t idx par e = t' := by cases h; rfl
          exact WF_leafTree hwf hn he
        · exact InsRes.noConfusion h
      | some node =>
        cases hc : node.child_index with
        | node k =>
          rw [insert_at_node_twig hd hn hc] at h
          exact ih _ _ _ _ _ _ _ h hwf he
        | element j0 =>
          rw [insert_at_node_subdiv hd hn hc] at h
          have hwf2 := WF_subdivTree hwf hn
          have he2 : e < (subdivTree t idx node).elements.length := he
          have hj0 : j0 < (subdivTree t idx node).elements.length := by
            rcases node with ⟨ci, pi, u⟩
            cases hc
            exact hwf.1 idx j0 pi u hn
          rcases hrec : Quadtree.insert_at_node fuel (subdivTree t idx node)
              idx par c d e with t3 | t3 | _
          · rw [hrec] at h
            have hwf3 := ih _ _ _ _ _ _ _ (Or.inl hrec) hwf2 he2
            have hp := insert_at_node_preserves fuel (subdivTree t idx node) idx par c d e t3
              (Or.inl hrec)
            exact ih _ _ _ _ _ _ _ h hwf3 (by rw [hp.2.1]; exact hj0)
          · rw [hrec] at h
            rcases h with h | h
            · exact InsRes.noConfusion h
            · obtain rfl : t3 = t' := by cases h; rfl
              exact ih _ _ _ _ _ _ _ (Or.inr hrec) hwf2 he2
          · rw [hrec] at h
            rcases h with h | h <;> exact InsRes.noConfusion h

/-- Tree states reachable through the public constructors and operations:
`new`, `clear`, and `insert` (successful or failed). -/
inductive Reachable [Positioned T] [Inhabited U] : Quadtree T U → Prop where
  | new (extent : SimFloat) : Reachable (Quadtree.new T U extent)
  | clear {t : Quadtree T U} : Reachable t → Reachable t.clear
  | insert {t : Quadtree T U} (el : T) : Reachable t → Reachable (t.insert el).2

theorem WF_new [Inhabited U] (extent : SimFloat) : (Quadtree.new T U extent).WF := by
  constructor <;> intro j a par u hj <;>
    · unfold Quadtree.new Quadtree.nodeAt at hj
      rcases j with _ | j
      · simp at hj
      · simp at hj

/-- C9: every tree state reachable by `new`, `clear`, and (successful or
failed) `insert` calls satisfies the arena invariant: each leaf references
exactly one element whose index is valid, and each twig's child pointer
addresses a block of exactly four contiguous child slots (offsets 0..3)
inside the node arena. -/
theorem reachable_WF [Positioned T] [Inhabited U] {t : Quadtree T U}
    (h : Reachable t) : t.WF := by
  induction h with
  | new extent => exact WF_new extent
  | clear _ ih => exact WF_new _
  | insert el _ ih =>
    rename_i t0 _
    by_cases hb : |(Positioned.position el).x| > t0.extent ∨
        |(Positioned.position el).y| > t0.extent
    · rw [insert_out_of_bounds_panics t0 el hb]
      exact ih
    · rw [insert_eq_of_inbounds t0 el hb]
      have hpwf : (pushElem t0 el).WF := by
        refine ⟨?_, ?_⟩
        · intro j e2 par u hj
          have := ih.1 j e2 par u hj
          simp only [pushElem, List.length_append, List.length_cons, List.length_nil]
          omega
        · intro j k par u hj
          exact ih.2 j k par u hj
      have hplen : t0.elements.length < (pushElem t0 el).elements.length := by
        simp [pushElem]
      rcases hrec : Quadtree.insert_at_node INSERT_FUEL (pushElem t0 el) 0 0 ⟨0, 0⟩ 0
          t0.elements.length with t2 | t2 | _
      · exact insert_at_node_WF INSERT_FUEL (pushElem t0 el) 0 0 ⟨0, 0⟩ 0
          t0.elements.length t2 (Or.inl hrec) hpwf hplen
      · exact insert_at_node_WF INSERT_FUEL (pushElem t0 el) 0 0 ⟨0, 0⟩ 0
          t0.elements.length t2 (Or.inr hrec) hpwf hplen
      · exact hpwf

/-- Witness for C9 at a concrete reachable state: the tree obtained by
inserting `bNE` into a fresh radius-2 tree. -/
theorem reachable_WF_witness :
    Reachable ((Quadtree.new Body Pseudobody 2).insert bNE).2 ∧
      ((Quadtree.new Body Pseudobody 2).insert bNE).2.WF :=
  ⟨Reachable.insert bNE (Reachable.new 2),
    reachable_WF (Reachable.insert bNE (Reachable.new 2))⟩

/-- Algebraic (pointer-free) view of a subtree of the arena: empty slot,
leaf with its element index, or twig with four children indexed by quadrant. -/
inductive QTree where
  | empty
  | leaf (e : ℕ)
  | twig (cs : Quadrant → QTree)

/-- The element indices of the leaves of an algebraic tree, in the quadrant
order NW, SW, NE, SE used by the arena layout and by `traverse_at_node`. -/
def leavesT : QTree → List ℕ
  | .empty => []
  | .leaf e => [e]
  | .twig cs =>
    leavesT (cs .NW) ++ leavesT (cs .SW) ++ leavesT (cs .NE) ++ leavesT (cs .SE)

/-- The leaves of an algebraic tree with the center and depth of their node
rectangle, mirroring the traversal geometry of `traverse_at_node`. -/
def leafGeomsT (ext : SimFloat) : QTree → Point2 → ℕ → List (ℕ × Point2 × ℕ)
  | .empty, _, _ => []
  | .leaf e, c, d => [(e, c, d)]
  | .twig cs, c, d =>
    leafGeomsT ext (cs .NW) (Quadrant.apply_offset .NW c ext d) (d + 1) ++
    leafGeomsT ext (cs .SW) (Quadrant.apply_offset .SW c ext d) (d + 1) ++
    leafGeomsT ext (cs .NE) (Quadrant.apply_offset .NE c ext d) (d + 1) ++
    leafGeomsT ext (cs .SE) (Quadrant.apply_offset .SE c ext d) (d + 1)

/-- Height of an algebraic tree. -/
def htT : QTree → ℕ
  | .empty => 1
  | .leaf _ => 1
  | .twig cs =>
    1 + max (max (htT (cs .NW)) (htT (cs .SW))) (max (htT (cs .NE)) (htT (cs .SE)))

/-- Result of the algebraic insertion, mirroring `InsRes`. -/
inductive InsResT where
  | okT (A : QTree)
  | errT (A : QTree)
  | fuelOutT

/-- Algebraic insertion: the same algorithm as `insert_at_node` (same fuel
discipline, same depth guard, same quadrant step, same subdivision and
re-insertion order) but on the pointer-free tree; `epos` gives the position
of each element index. -/
def insT (epos : ℕ → Point2) (ext : SimFloat) :
    ℕ → QTree → Point2 → ℕ → ℕ → InsResT
  | 0, _, _, _, _ => .fuelOutT
  | fuel + 1, A, c, d, e =>
    if d > MAX_DEPTH then .errT A
    else
      match A with
      | .empty => .okT (.leaf e)
      | .twig cs =>
        let q := Quadrant.from_comparison (epos e) c
        let c2 := q.apply_offset c ext d
        match insT epos ext fuel (cs q) c2 (d + 1) e with
        | .okT A2 => .okT (.twig (Function.update cs q A2))
        | .errT A2 => .errT (.twig (Function.update cs q A2))
        | .fuelOutT => .fuelOutT
      | .leaf j =>
        match insT epos ext fuel (.twig fun _ => .empty) c d e with
        | .okT A2 => insT epos ext fuel A2 c d j
        | r => r

/-- Union of a quadrant-indexed family of slot sets. -/
def unionQ (f : Quadrant → Finset ℕ) : Finset ℕ :=
  f .NW ∪ f .SW ∪ f .NE ∪ f .SE

/-- `Denotes nodes idx A S`: slot `idx` of the arena denotes the algebraic
tree `A`, and `S` is the exact set of arena slots the subtree occupies; the
constructor for twigs demands pairwise-disjoint child footprints, so a
denoted subtree is unaliased. -/
inductive Denotes (nodes : List (Option (QuadtreeNode U))) :
    ℕ → QTree → Finset ℕ → Prop where
  | empty (idx : ℕ) (hn : nodes[idx]? = some none) :
      Denotes nodes idx .empty {idx}
  | leaf (idx e par : ℕ) (u : U)
      (hn : nodes[idx]? = some (some ⟨.element e, par, u⟩)) :
      Denotes nodes idx (.leaf e) {idx}
  | twig (idx k par : ℕ) (u : U) (cs : Quadrant → QTree) (Ss : Quadrant → Finset ℕ)
      (hn : nodes[idx]? = some (some ⟨.node k, par, u⟩))
      (hch : ∀ q : Quadrant, Denotes nodes (k + q.toIdx) (cs q) (Ss q))
      (hdisj : ∀ q1 q2 : Quadrant, q1 ≠ q2 → Disjoint (Ss q1) (Ss q2))
      (hidx : ∀ q : Quadrant, idx ∉ Ss q) :
      Denotes nodes idx (.twig cs) (insert idx (unionQ Ss))

theorem lt_length_of_getElem?_eq_some {l : List A2} {j : ℕ} {x : A2}
    (h : l[j]? = some x) : j < l.length := by
  by_contra hge
  rw [List.getElem?_eq_none (by omega)] at h
  exact Option.noConfusion h

theorem nodeAt_eq_some_iff (t : Quadtree T U) (idx : ℕ) (n : QuadtreeNode U) :
    t.nodeAt idx = some n ↔ t.nodes[idx]? = some (some n) := by
  unfold Quadtree.nodeAt
  cases h : t.nodes[idx]? with
  | none => simp
  | some o => cases o <;> simp

theorem nodeAt_eq_none_of_getElem? (t : Quadtree T U) (idx : ℕ)
    (h : t.nodes[idx]? = some none) : t.nodeAt idx = none := by
  unfold Quadtree.nodeAt
  rw [h]
  rfl

/-- Every slot in a denoted footprint lies inside the arena. -/
theorem denotes_mem_lt {nodes : List (Option (QuadtreeNode U))} :
    ∀ {idx : ℕ} {A : QTree} {S : Finset ℕ}, Denotes nodes idx A S →
      ∀ j ∈ S, j < nodes.length := by
  intro idx A S h
  induction h with
  | empty idx hn =>
    intro j hj
    rw [Finset.mem_singleton] at hj
    subst hj
    exact lt_length_of_getElem?_eq_some hn
  | leaf idx e par u hn =>
    intro j hj
    rw [Finset.mem_singleton] at hj
    subst hj
    exact lt_length_of_getElem?_eq_some hn
  | twig idx k par u cs Ss hn hch hdisj hidx ih =>
    intro j hj
    rw [Finset.mem_insert] at hj
    rcases hj with rfl | hj
    · exact lt_length_of_getElem?_eq_some hn
    · unfold unionQ at hj
      simp only [Finset.mem_union] at hj
      rcases hj with ((hj | hj) | hj) | hj
      · exact ih .NW j hj
      · exact ih .SW j hj
      · exact ih .NE j hj
      · exact ih .SE j hj

/-- The root of a denoted subtree is in its footprint. -/
theorem denotes_idx_mem {nodes : List (Option (QuadtreeNode U))} {idx : ℕ}
    {A : QTree} {S : Finset ℕ} (h : Denotes nodes idx A S) : idx ∈ S := by
  cases h with
  | empty idx hn => exact Finset.mem_singleton_self idx
  | leaf idx e par u hn => exact Finset.mem_singleton_self idx
  | twig idx k par u cs Ss hn hch hdisj hidx => exact Finset.mem_insert_self idx _

/-- Denotation only depends on the slots in the footprint. -/
theorem denotes_congr {nodes nodes2 : List (Option (QuadtreeNode U))} :
    ∀ {idx : ℕ} {A : QTree} {S : Finset ℕ}, Denotes nodes idx A S →
      (∀ j ∈ S, nodes2[j]? = nodes[j]?) → Denotes nodes2 idx A S := by
  intro idx A S h
  induction h with
  | empty idx hn =>
    intro hf
    exact Denotes.empty idx ((hf idx (Finset.mem_singleton_self idx)).trans hn)
  | leaf idx e par u hn =>
    intro hf
    exact Denotes.leaf idx e par u ((hf idx (Finset.mem_singleton_self idx)).trans hn)
  | twig idx k par u cs Ss hn hch hdisj hidx ih =>
    intro hf
    refine Denotes.twig idx k par u cs Ss
      ((hf idx (Finset.mem_insert_self idx _)).trans hn) ?_ hdisj hidx
    intro q
    refine ih q ?_
    intro j hj
    refine hf j ?_
    rw [Finset.mem_insert]
    right
    unfold unionQ
    simp only [Finset.mem_union]
    cases q with
    | NW => exact Or.inl (Or.inl (Or.inl hj))
    | SW => exact Or.inl (Or.inl (Or.inr hj))
    | NE => exact Or.inl (Or.inr hj)
    | SE => exact Or.inr hj

theorem leafTree_nodes_length [Inhabited U] (t : Quadtree T U) (idx par e : ℕ) :
    (leafTree t idx par e).nodes.length = t.nodes.length := by
  simp [leafTree]

theorem leafTree_getElem?_self [Inhabited U] (t : Quadtree T U) (idx par e : ℕ)
    (hlt : idx < t.nodes.length) :
    (leafTree t idx par e).nodes[idx]? =
      some (some ⟨.element e, par, default⟩) := by
  unfold leafTree
  simp only []
  rw [List.getElem?_set_self hlt]

theorem leafTree_getElem?_ne [Inhabited U] (t : Quadtree T U) (idx par e j : ℕ)
    (h : idx ≠ j) : (leafTree t idx par e).nodes[j]? = t.nodes[j]? := by
  unfold leafTree
  simp only []
  rw [List.getElem?_set_ne h]

theorem subdivTree_nodes_length (t : Quadtree T U) (idx : ℕ) (node : QuadtreeNode U) :
    (subdivTree t idx node).nodes.length = t.nodes.length + 4 := by
  simp [subdivTree]

theorem subdivTree_getElem?_self (t : Quadtree T U) (idx : ℕ) (node : QuadtreeNode U)
    (hlt : idx < t.nodes.length) :
    (subdivTree t idx node).nodes[idx]? =
      some (some { node with child_index := .node t.nodes.length }) := by
  unfold subdivTree
  simp only []
  rw [List.getElem?_set_self (by simp; omega)]

theorem subdivTree_getElem?_old (t : Quadtree T U) (idx : ℕ) (node : QuadtreeNode U)
    (j : ℕ) (hj : j < t.nodes.length) (hne : j ≠ idx) :
    (subdivTree t idx node).nodes[j]? = t.nodes[j]? := by
  unfold subdivTree
  simp only []
  rw [List.getElem?_set_ne (fun h => hne h.symm), List.getElem?_append_left hj]

theorem subdivTree_getElem?_new (t : Quadtree T U) (idx : ℕ) (node : QuadtreeNode U)
    (i : ℕ) (hi : i < 4) (hidx : idx < t.nodes.length) :
    (subdivTree t idx node).nodes[t.nodes.length + i]? = some none := by
  unfold subdivTree
  simp only []
  rw [List.getElem?_set_ne (by omega), List.getElem?_append_right (by omega)]
  have : t.nodes.length + i - t.nodes.length = i := by omega
  rw [this]
  interval_cases i <;> rfl

theorem mem_unionQ {f : Quadrant → Finset ℕ} {x : ℕ} :
    x ∈ unionQ f ↔ ∃ q, x ∈ f q := by
  unfold unionQ
  simp only [Finset.mem_union]
  constructor
  · rintro (((h | h) | h) | h)
    · exact ⟨.NW, h⟩
    · exact ⟨.SW, h⟩
    · exact ⟨.NE, h⟩
    · exact ⟨.SE, h⟩
  · rintro ⟨q, h⟩
    cases q with
    | NW => exact Or.inl (Or.inl (Or.inl h))
    | SW => exact Or.inl (Or.inl (Or.inr h))
    | NE => exact Or.inl (Or.inr h)
    | SE => exact Or.inr h

theorem unionQ_update (Ss : Quadrant → Finset ℕ) (q : Quadrant) (X : Finset ℕ) :
    unionQ (Function.update Ss q (Ss q ∪ X)) = unionQ Ss ∪ X := by
  cases q <;>
    · ext x
      simp only [unionQ, Function.update, Finset.mem_union]
      simp
      tauto

theorem elemPos_subdivTree [Positioned T] (t : Quadtree T U) (idx : ℕ)
    (node : QuadtreeNode U) : (subdivTree t idx node).elemPos = t.elemPos := rfl

theorem elemPos_fun_eq [Positioned T] [Inhabited U] {fuel : ℕ} {t : Quadtree T U}
    {idx par : ℕ} {c : Point2} {d e : ℕ} {t' : Quadtree T U}
    (h : Quadtree.insert_at_node fuel t idx par c d e = .ok t' ∨
      Quadtree.insert_at_node fuel t idx par c d e = .err t') :
    t'.elemPos = t.elemPos := funext (insert_at_node_elemPos h)

/-- Postcondition of the simulation between `insert_at_node` and `insT`: the
result slot denotes the algebraic result, the footprint grows by exactly the
freshly appended slots, and every old slot outside the original footprint is
untouched. -/
def corrPost (t t' : Quadtree T U) (idx : ℕ) (A' : QTree) (S : Finset ℕ) : Prop :=
  Denotes t'.nodes idx A' (S ∪ Finset.Ico t.nodes.length t'.nodes.length) ∧
  t.nodes.length ≤ t'.nodes.length ∧
  (∀ j, j < t.nodes.length → j ∉ S → t'.nodes[j]? = t.nodes[j]?)

theorem corrPost_trans {t2 t3 t4 : Quadtree T U} {idx : ℕ} {A2 A3 : QTree}
    {S2 : Finset ℕ} (h1 : corrPost t2 t3 idx A2 S2)
    (h2 : corrPost t3 t4 idx A3
      (S2 ∪ Finset.Ico t2.nodes.length t3.nodes.length)) :
    corrPost t2 t4 idx A3 S2 := by
  obtain ⟨hd1, hl1, hf1⟩ := h1
  obtain ⟨hd2, hl2, hf2⟩ := h2
  refine ⟨?_, le_trans hl1 hl2, ?_⟩
  · have hs : (S2 ∪ Finset.Ico t2.nodes.length t3.nodes.length) ∪
        Finset.Ico t3.nodes.length t4.nodes.length =
        S2 ∪ Finset.Ico t2.nodes.length t4.nodes.length := by
      ext x
      simp only [Finset.mem_union, Finset.mem_Ico]
      by_cases hx : x ∈ S2
      · simp [hx]
      · simp [hx]
        omega
    rw [hs] at hd2
    exact hd2
  · intro j hj hjS
    have e1 : t4.nodes[j]? = t3.nodes[j]? := by
      refine hf2 j (by omega) ?_
      simp only [Finset.mem_union, Finset.mem_Ico]
      rintro (h | h)
      · exact hjS h
      · omega
    exact e1.trans (hf1 j hj hjS)

/-- The footprint of the four fresh child slots together with the subdivided
slot, as an interval. -/
theorem subdiv_footprint_eq (t : Quadtree T U) (idx : ℕ) :
    (insert idx (unionQ fun q => {t.nodes.length + q.toIdx}) : Finset ℕ) =
      {idx} ∪ Finset.Ico t.nodes.length (t.nodes.length + 4) := by
  ext x
  simp only [Finset.mem_insert, mem_unionQ, Finset.mem_singleton, Finset.mem_union,
    Finset.mem_Ico]
  constructor
  · rintro (rfl | ⟨q, rfl⟩)
    · exact Or.inl rfl
    · right
      cases q <;> simp [Quadrant.toIdx]
  · rintro (rfl | ⟨h1, h2⟩)
    · exact Or.inl rfl
    · right
      rcases (by omega : x = t.nodes.length ∨ x = t.nodes.length + 1 ∨
          x = t.nodes.length + 2 ∨ x = t.nodes.length + 3) with rfl | rfl | rfl | rfl
      · exact ⟨.NW, by simp [Quadrant.toIdx]⟩
      · exact ⟨.SW, by simp [Quadrant.toIdx]⟩
      · exact ⟨.NE, by simp [Quadrant.toIdx]⟩
      · exact ⟨.SE, by simp [Quadrant.toIdx]⟩

/-- Lift a postcondition based at the subdivided tree to one based at the
original tree whose footprint was the single slot `idx`. -/
theorem corrPost_subdiv_lift {t t3 : Quadtree T U} {idx : ℕ}
    {node : QuadtreeNode U} {A2 : QTree} (hlt : idx < t.nodes.length)
    (h : corrPost (subdivTree t idx node) t3 idx A2
      (insert idx (unionQ fun q => {t.nodes.length + q.toIdx}))) :
    corrPost t t3 idx A2 {idx} := by
  obtain ⟨hd1, hl1, hf1⟩ := h
  have hlen2 := subdivTree_nodes_length t idx node
  refine ⟨?_, by omega, ?_⟩
  · have hs : (insert idx (unionQ fun q => {t.nodes.length + q.toIdx}) : Finset ℕ) ∪
        Finset.Ico (subdivTree t idx node).nodes.length t3.nodes.length =
        {idx} ∪ Finset.Ico t.nodes.length t3.nodes.length := by
      rw [subdiv_footprint_eq, hlen2]
      ext x
      simp only [Finset.mem_union, Finset.mem_Ico, Finset.mem_singleton]
      omega
    rw [hs] at hd1
    exact hd1
  · intro j hj hjS
    rw [Finset.mem_singleton] at hjS
    have e1 : t3.nodes[j]? = (subdivTree t idx node).nodes[j]? := by
      refine hf1 j (by omega) ?_
      rw [subdiv_footprint_eq]
      simp only [Finset.mem_union, Finset.mem_Ico, Finset.mem_singleton]
      rintro (rfl | h)
      · exact hjS rfl
      · omega
    exact e1.trans (subdivTree_getElem?_old t idx node j hj (fun h => hjS h))

theorem toIdx_injective : ∀ q1 q2 : Quadrant, q1.toIdx = q2.toIdx → q1 = q2 := by
  intro q1 q2
  cases q1 <;> cases q2 <;> simp [Quadrant.toIdx]

theorem insT_depth (epos : ℕ → Point2) (ext : SimFloat) (fuel : ℕ) (A : QTree)
    (c : Point2) (d e : ℕ) (hd : d > MAX_DEPTH) :
    insT epos ext (fuel + 1) A c d e = .errT A := by
  cases A <;> rw [insT, if_pos hd]

/-- Rebuilding a twig denotation after one child subtree was updated: the
child in quadrant `q` now denotes `A2` with footprint grown by the appended
interval, the other slots are untouched, so the twig denotes the updated
algebraic tree with the correspondingly grown footprint. -/
theorem denotes_twig_update {U : Type} {nodes nodes2 : List (Option (QuadtreeNode U))}
    {idx k par0 : ℕ} {u0 : U} {cs : Quadrant → QTree} {Ss : Quadrant → Finset ℕ}
    {q : Quadrant} {A2 : QTree} {len2 : ℕ}
    (hn : nodes[idx]? = some (some ⟨.node k, par0, u0⟩))
    (hch : ∀ q2, Denotes nodes (k + q2.toIdx) (cs q2) (Ss q2))
    (hdisj : ∀ q1 q2, q1 ≠ q2 → Disjoint (Ss q1) (Ss q2))
    (hidx2 : ∀ q2, idx ∉ Ss q2)
    (hlt : idx < nodes.length)
    (hlen : nodes.length ≤ len2)
    (hframe : ∀ j, j < nodes.length → j ∉ Ss q → nodes2[j]? = nodes[j]?)
    (hD2 : Denotes nodes2 (k + q.toIdx) A2 (Ss q ∪ Finset.Ico nodes.length len2)) :
    Denotes nodes2 idx (.twig (Function.update cs q A2))
      (insert idx (unionQ Ss) ∪ Finset.Ico nodes.length len2) := by
  have hset : (insert idx (unionQ (Function.update Ss q
      (Ss q ∪ Finset.Ico nodes.length len2))) : Finset ℕ) =
      insert idx (unionQ Ss) ∪ Finset.Ico nodes.length len2 := by
    rw [unionQ_update]
    ext x
    simp only [Finset.mem_insert, Finset.mem_union]
    tauto
  rw [← hset]
  refine Denotes.twig idx k par0 u0 _ _ ?_ ?_ ?_ ?_
  · rw [hframe idx hlt (hidx2 q)]
    exact hn
  · intro q2
    by_cases hq2 : q2 = q
    · subst hq2
      rw [Function.update_same, Function.update_same]
      exact hD2
    · rw [Function.update_noteq hq2, Function.update_noteq hq2]
      refine denotes_congr (hch q2) ?_
      intro j hj
      refine hframe j (denotes_mem_lt (hch q2) j hj) ?_
      intro hmem
      exact Finset.disjoint_left.mp (hdisj q2 q hq2) hj hmem
  · intro q1 q2 hne
    by_cases hq1 : q1 = q
    · subst hq1
      rw [Function.update_same, Function.update_noteq (Ne.symm hne)]
      rw [Finset.disjoint_union_left]
      refine ⟨hdisj q1 q2 hne, ?_⟩
      rw [Finset.disjoint_left]
      intro a ha hmem
      rw [Finset.mem_Ico] at ha
      have := denotes_mem_lt (hch q2) a hmem
      omega
    · by_cases hq2 : q2 = q
      · subst hq2
        rw [Function.update_noteq hq1, Function.update_same]
        rw [Finset.disjoint_union_right]
        refine ⟨hdisj q1 q2 hne, ?_⟩
        rw [Finset.disjoint_right]
        intro a ha hmem
        rw [Finset.mem_Ico] at ha
        have := denotes_mem_lt (hch q1) a hmem
        omega
      · rw [Function.update_noteq hq1, Function.update_noteq hq2]
        exact hdisj q1 q2 hne
  · intro q2
    by_cases hq2 : q2 = q
    · subst hq2
      rw [Function.update_same, Finset.mem_union]
      rintro (h | h)
      · exact hidx2 q2 h
      · rw [Finset.mem_Ico] at h
        omega
    · rw [Function.update_noteq hq2]
      exact hidx2 q2

/-- Simulation between the arena insertion and the algebraic insertion: if
slot `idx` denotes `A` with footprint `S`, then `insert_at_node` and `insT`
(run with the same fuel, element positions, extent, center and depth) produce
the same outcome; on `ok` and `err` the resulting slot denotes the algebraic
result, the footprint grows by exactly the freshly appended slots, and old
slots outside the footprint are untouched. -/
theorem corr [Positioned T] [Inhabited U] :
    ∀ (fuel : ℕ) (t : Quadtree T U) (idx par : ℕ) (c : Point2) (d e : ℕ)
      (A : QTree) (S : Finset ℕ), Denotes t.nodes idx A S →
      (∀ A', insT t.elemPos t.extent fuel A c d e = .okT A' →
        ∃ t', Quadtree.insert_at_node fuel t idx par c d e = .ok t' ∧
          corrPost t t' idx A' S) ∧
      (∀ A', insT t.elemPos t.extent fuel A c d e = .errT A' →
        ∃ t', Quadtree.insert_at_node fuel t idx par c d e = .err t' ∧
          corrPost t t' idx A' S) ∧
      (insT t.elemPos t.extent fuel A c d e = .fuelOutT →
        Quadtree.insert_at_node fuel t idx par c d e = .fuelOut) := by
  intro fuel
  induction fuel with
  | zero =>
    intro t idx par c d e A S hD
    refine ⟨?_, ?_, ?_⟩
    · intro A' h
      rw [insT] at h
      exact InsResT.noConfusion h
    · intro A' h
      rw [insT] at h
      exact InsResT.noConfusion h
    · intro _
      rw [Quadtree.insert_at_node]
  | succ fuel ih =>
    intro t idx par c d e A S hD
    by_cases hd : d > MAX_DEPTH
    · have hins := insT_depth t.elemPos t.extent fuel A c d e hd
      refine ⟨?_, ?_, ?_⟩
      · intro A' h
        rw [hins] at h
        exact InsResT.noConfusion h
      · intro A' h
        rw [hins] at h
        cases h
        refine ⟨t, insert_at_node_depth hd, ?_, le_refl _, fun j _ _ => rfl⟩
        simpa [Finset.Ico_self] using hD
      · intro h
        rw [hins] at h
        exact InsResT.noConfusion h
    · cases hD with
      | empty _ hn =>
        have hins : insT t.elemPos t.extent (fuel + 1) .empty c d e = .okT (.leaf e) := by
          rw [insT, if_neg hd]
        have hlt : idx < t.nodes.length := lt_length_of_getElem?_eq_some hn
        have hcon := @insert_at_node_empty T U _ _ fuel t idx par c d e hd
          (nodeAt_eq_none_of_getElem? t idx hn)
        refine ⟨?_, ?_, ?_⟩
        · intro A' h
          rw [hins] at h
          cases h
          refine ⟨leafTree t idx par e, hcon, ?_, ?_, ?_⟩
          · rw [leafTree_nodes_length, Finset.Ico_self, Finset.union_empty]
            exact Denotes.leaf idx e par default (leafTree_getElem?_self t idx par e hlt)
          · rw [leafTree_nodes_length]
          · intro j _ hjS
            rw [Finset.mem_singleton] at hjS
            exact leafTree_getElem?_ne t idx par e j (fun h => hjS h.symm)
        · intro A' h
          rw [hins] at h
          exact InsResT.noConfusion h
        · intro h
          rw [hins] at h
          exact InsResT.noConfusion h
      | leaf _ j0 par0 u0 hn =>
        have hins : insT t.elemPos t.extent (fuel + 1) (.leaf j0) c d e =
            (match insT t.elemPos t.extent fuel (.twig fun _ => .empty) c d e with
             | .okT A2 => insT t.elemPos t.extent fuel A2 c d j0
             | r => r) := by
          rw [insT, if_neg hd]
        have hlt : idx < t.nodes.length := lt_length_of_getElem?_eq_some hn
        have hnode : t.nodeAt idx = some ⟨.element j0, par0, u0⟩ :=
          (nodeAt_eq_some_iff t idx _).mpr hn
        have hcon := @insert_at_node_subdiv T U _ _ fuel t idx par c d e
          ⟨.element j0, par0, u0⟩ j0 hd hnode rfl
        have hD2 : Denotes (subdivTree t idx ⟨.element j0, par0, u0⟩).nodes idx
            (.twig fun _ => .empty)
            (insert idx (unionQ fun q => {t.nodes.length + q.toIdx})) := by
          refine Denotes.twig idx t.nodes.length par0 u0 _ _ ?_ ?_ ?_ ?_
          · exact subdivTree_getElem?_self t idx _ hlt
          · intro q
            exact Denotes.empty _ (subdivTree_getElem?_new t idx _ q.toIdx
              (by cases q <;> simp [Quadrant.toIdx]) hlt)
          · intro q1 q2 hne
            rw [Finset.disjoint_singleton]
            intro hcontra
            exact hne (toIdx_injective q1 q2 (by omega))
          · intro q
            rw [Finset.mem_singleton]
            omega
        rcases hi1 : insT t.elemPos t.extent fuel (.twig fun _ => .empty) c d e with
          A2 | A2 | _
        · have hi1' : insT (subdivTree t idx ⟨.element j0, par0, u0⟩).elemPos
              (subdivTree t idx ⟨.element j0, par0, u0⟩).extent fuel
              (.twig fun _ => .empty) c d e = .okT A2 := hi1
          obtain ⟨t3, hcon3, hpost3⟩ :=
            (ih (subdivTree t idx ⟨.element j0, par0, u0⟩) idx par c d e _ _ hD2).1 A2 hi1'
          have hD3 := hpost3.1
          have he3 : t3.elemPos = t.elemPos := by
            have h := elemPos_fun_eq (Or.inl hcon3)
            exact h
          have hx3 : t3.extent = t.extent := by
            have h := (insert_at_node_preserves fuel _ idx par c d e t3 (Or.inl hcon3)).1
            exact h
          rcases hi2 : insT t.elemPos t.extent fuel A2 c d j0 with A3 | A3 | _
          · obtain ⟨t4, hcon4, hpost4⟩ :=
              (ih t3 idx par c d j0 A2 _ hD3).1 A3 (by rw [he3, hx3]; exact hi2)
            have houter : insT t.elemPos t.extent (fuel + 1) (.leaf j0) c d e =
                .okT A3 := by rw [hins, hi1]; exact hi2
            have hpostC := corrPost_subdiv_lift hlt (corrPost_trans hpost3 hpost4)
            refine ⟨?_, ?_, ?_⟩
            · intro A' h
              rw [houter] at h
              cases h
              exact ⟨t4, by rw [hcon, hcon3]; exact hcon4, hpostC⟩
            · intro A' h
              rw [houter] at h
              exact InsResT.noConfusion h
            · intro h
              rw [houter] at h
              exact InsResT.noConfusion h
          · obtain ⟨t4, hcon4, hpost4⟩ :=
              (ih t3 idx par c d j0 A2 _ hD3).2.1 A3 (by rw [he3, hx3]; exact hi2)
            have houter : insT t.elemPos t.extent (fuel + 1) (.leaf j0) c d e =
                .errT A3 := by rw [hins, hi1]; exact hi2
            have hpostC := corrPost_subdiv_lift hlt (corrPost_trans hpost3 hpost4)
            refine ⟨?_, ?_, ?_⟩
            · intro A' h
              rw [houter] at h
              exact InsResT.noConfusion h
            · intro A' h
              rw [houter] at h
              cases h
              exact ⟨t4, by rw [hcon, hcon3]; exact hcon4, hpostC⟩
            · intro h
              rw [houter] at h
              exact InsResT.noConfusion h
          · have hful := (ih t3 idx par c d j0 A2 _ hD3).2.2 (by rw [he3, hx3]; exact hi2)
            have houter : insT t.elemPos t.extent (fuel + 1) (.leaf j0) c d e =
                .fuelOutT := by rw [hins, hi1]; exact hi2
            refine ⟨?_, ?_, ?_⟩
            · intro A' h
              rw [houter] at h
              exact InsResT.noConfusion h
            · intro A' h
              rw [houter] at h
              exact InsResT.noConfusion h
            · intro _
              rw [hcon, hcon3]
              exact hful
        · have hi1' : insT (subdivTree t idx ⟨.element j0, par0, u0⟩).elemPos
              (subdivTree t idx ⟨.element j0, par0, u0⟩).extent fuel
              (.twig fun _ => .empty) c d e = .errT A2 := hi1
          obtain ⟨t3, hcon3, hpost3⟩ :=
            (ih (subdivTree t idx ⟨.element j0, par0, u0⟩) idx par c d e _ _ hD2).2.1 A2 hi1'
          have houter : insT t.elemPos t.extent (fuel + 1) (.leaf j0) c d e =
              .errT A2 := by rw [hins, hi1]
          have hpostC := corrPost_subdiv_lift hlt hpost3
          refine ⟨?_, ?_, ?_⟩
          · intro A' h
            rw [houter] at h
            exact InsResT.noConfusion h
          · intro A' h
            rw [houter] at h
            cases h
            exact ⟨t3, by rw [hcon, hcon3], hpostC⟩
          · intro h
            rw [houter] at h
            exact InsResT.noConfusion h
        · have hi1' : insT (subdivTree t idx ⟨.element j0, par0, u0⟩).elemPos
              (subdivTree t idx ⟨.element j0, par0, u0⟩).extent fuel
              (.twig fun _ => .empty) c d e = .fuelOutT := hi1
          have hful :=
            (ih (subdivTree t idx ⟨.element j0, par0, u0⟩) idx par c d e _ _ hD2).2.2 hi1'
          have houter : insT t.elemPos t.extent (fuel + 1) (.leaf j0) c d e =
              .fuelOutT := by rw [hins, hi1]
          refine ⟨?_, ?_, ?_⟩
          · intro A' h
            rw [houter] at h
            exact InsResT.noConfusion h
          · intro A' h
            rw [houter] at h
            exact InsResT.noConfusion h
          · intro _
            rw [hcon, hful]
      | twig _ k par0 u0 cs Ss hn hch hdisj hidx2 =>
        have hlt : idx < t.nodes.length := lt_length_of_getElem?_eq_some hn
        have hnode : t.nodeAt idx = some ⟨.node k, par0, u0⟩ :=
          (nodeAt_eq_some_iff t idx _).mpr hn
        have hcon := @insert_at_node_twig T U _ _ fuel t idx par c d e
          ⟨.node k, par0, u0⟩ k hd hnode rfl
        have hins : insT t.elemPos t.extent (fuel + 1) (.twig cs) c d e =
            (match insT t.elemPos t.extent fuel
                (cs (Quadrant.from_comparison (t.elemPos e) c))
                ((Quadrant.from_comparison (t.elemPos e) c).apply_offset c t.extent d)
                (d + 1) e with
             | .okT A2 => .okT (.twig (Function.update cs
                 (Quadrant.from_comparison (t.elemPos e) c) A2))
             | .errT A2 => .errT (.twig (Function.update cs
                 (Quadrant.from_comparison (t.elemPos e) c) A2))
             | .fuelOutT => .fuelOutT) := by
          rw [insT, if_neg hd]
        have hchq := hch (Quadrant.from_comparison (t.elemPos e) c)
        rcases hi1 : insT t.elemPos t.extent fuel
            (cs (Quadrant.from_comparison (t.elemPos e) c))
            ((Quadrant.from_comparison (t.elemPos e) c).apply_offset c t.extent d)
            (d + 1) e with A2 | A2 | _
        · obtain ⟨t', hcon', hpost'⟩ :=
            (ih t (k + (Quadrant.from_comparison (t.elemPos e) c).toIdx) idx
              ((Quadrant.from_comparison (t.elemPos e) c).apply_offset c t.extent d)
              (d + 1) e _ _ hchq).1 A2 hi1
          have houter : insT t.elemPos t.extent (fuel + 1) (.twig cs) c d e =
              .okT (.twig (Function.update cs
                (Quadrant.from_comparison (t.elemPos e) c) A2)) := by
            rw [hins, hi1]
          have hDtwig := denotes_twig_update hn hch hdisj hidx2 hlt hpost'.2.1
            hpost'.2.2 hpost'.1
          refine ⟨?_, ?_, ?_⟩
          · intro A' h
            rw [houter] at h
            cases h
            refine ⟨t', by rw [hcon]; exact hcon', hDtwig, hpost'.2.1, ?_⟩
            intro j hj hjS
            refine hpost'.2.2 j hj ?_
            intro hmem
            refine hjS ?_
            rw [Finset.mem_insert]
            exact Or.inr (mem_unionQ.mpr ⟨_, hmem⟩)
          · intro A' h
            rw [houter] at h
            exact InsResT.noConfusion h
          · intro h
            rw [houter] at h
            exact InsResT.noConfusion h
        · obtain ⟨t', hcon', hpost'⟩ :=
            (ih t (k + (Quadrant.from_comparison (t.elemPos e) c).toIdx) idx
              ((Quadrant.from_comparison (t.elemPos e) c).apply_offset c t.extent d)
              (d + 1) e _ _ hchq).2.1 A2 hi1
          have houter : insT t.elemPos t.extent (fuel + 1) (.twig cs) c d e =
              .errT (.twig (Function.update cs
                (Quadrant.from_comparison (t.elemPos e) c) A2)) := by
            rw [hins, hi1]
          have hDtwig := denotes_twig_update hn hch hdisj hidx2 hlt hpost'.2.1
            hpost'.2.2 hpost'.1
          refine ⟨?_, ?_, ?_⟩
          · intro A' h
            rw [houter] at h
            exact InsResT.noConfusion h
          · intro A' h
            rw [houter] at h
            cases h
            refine ⟨t', by rw [hcon]; exact hcon', hDtwig, hpost'.2.1, ?_⟩
            intro j hj hjS
            refine hpost'.2.2 j hj ?_
            intro hmem
            refine hjS ?_
            rw [Finset.mem_insert]
            exact Or.inr (mem_unionQ.mpr ⟨_, hmem⟩)
          · intro h
            rw [houter] at h
            exact InsResT.noConfusion h
        · have hful :=
            (ih t (k + (Quadrant.from_comparison (t.elemPos e) c).toIdx) idx
              ((Quadrant.from_comparison (t.elemPos e) c).apply_offset c t.extent d)
              (d + 1) e _ _ hchq).2.2 hi1
          have houter : insT t.elemPos t.extent (fuel + 1) (.twig cs) c d e =
              .fuelOutT := by rw [hins, hi1]
          refine ⟨?_, ?_, ?_⟩
          · intro A' h
            rw [houter] at h
            exact InsResT.noConfusion h
          · intro A' h
            rw [houter] at h
            exact InsResT.noConfusion h
          · intro _
            rw [hcon]
            exact hful

/-- The multiset of leaf element indices of an algebraic tree. -/
def leavesM : QTree → Multiset ℕ
  | .empty => 0
  | .leaf e => {e}
  | .twig cs => leavesM (cs .NW) + leavesM (cs .SW) + leavesM (cs .NE) + leavesM (cs .SE)

theorem leavesM_twig_update (cs : Quadrant → QTree) (q : Quadrant) (A2 : QTree) :
    leavesM (.twig (Function.update cs q A2)) + leavesM (cs q) =
      leavesM (.twig cs) + leavesM A2 := by
  cases q <;>
    · simp only [leavesM, Function.update]
      simp
      abel

/-- One-step unfolding of `insT` at a twig below the depth bound. -/
theorem insT_twig_eq (epos : ℕ → Point2) (ext : SimFloat) (fuel : ℕ)
    (cs : Quadrant → QTree) (c : Point2) (d e : ℕ) (hd : ¬d > MAX_DEPTH) :
    insT epos ext (fuel + 1) (.twig cs) c d e =
      (match insT epos ext fuel (cs (Quadrant.from_comparison (epos e) c))
          ((Quadrant.from_comparison (epos e) c).apply_offset c ext d) (d + 1) e with
       | .okT A2 => .okT (.twig (Function.update cs
           (Quadrant.from_comparison (epos e) c) A2))
       | .errT A2 => .errT (.twig (Function.update cs
           (Quadrant.from_comparison (epos e) c) A2))
       | .fuelOutT => .fuelOutT) := by
  rw [insT, if_neg hd]

/-- One-step unfolding of `insT` at a leaf below the depth bound. -/
theorem insT_leaf_eq (epos : ℕ → Point2) (ext : SimFloat) (fuel : ℕ)
    (j : ℕ) (c : Point2) (d e : ℕ) (hd : ¬d > MAX_DEPTH) :
    insT epos ext (fuel + 1) (.leaf j) c d e =
      (match insT epos ext fuel (.twig fun _ => .empty) c d e with
       | .okT A2 => insT epos ext fuel A2 c d j
       | r => r) := by
  rw [insT, if_neg hd]

/-- One-step unfolding of `insT` at an empty slot below the depth bound. -/
theorem insT_empty_eq (epos : ℕ → Point2) (ext : SimFloat) (fuel : ℕ)
    (c : Point2) (d e : ℕ) (hd : ¬d > MAX_DEPTH) :
    insT epos ext (fuel + 1) .empty c d e = .okT (.leaf e) := by
  rw [insT, if_neg hd]

/-- A successful algebraic insertion adds exactly the inserted element to the
leaf multiset. -/
theorem insT_leavesM (epos : ℕ → Point2) (ext : SimFloat) :
    ∀ (fuel : ℕ) (A : QTree) (c : Point2) (d e : ℕ) (A' : QTree),
      insT epos ext fuel A c d e = .okT A' →
      leavesM A' = e ::ₘ leavesM A := by
  intro fuel
  induction fuel with
  | zero =>
    intro A c d e A' h
    rw [insT] at h
    exact InsResT.noConfusion h
  | succ fuel ih =>
    intro A c d e A' h
    by_cases hd : d > MAX_DEPTH
    · rw [insT_depth _ _ _ _ _ _ _ hd] at h
      exact InsResT.noConfusion h
    · cases A with
      | empty =>
        rw [insT_empty_eq _ _ _ _ _ _ hd] at h
        cases h
        simp [leavesM]
      | leaf j =>
        rw [insT_leaf_eq _ _ _ _ _ _ _ hd] at h
        rcases hi1 : insT epos ext fuel (.twig fun _ => .empty) c d e with A2 | A2 | _ <;>
          rw [hi1] at h
        · have h1 := ih _ _ _ _ _ hi1
          have h2 := ih _ _ _ _ _ h
          rw [h2, h1]
          have hT0 : leavesM (.twig fun _ => .empty) = 0 := rfl
          rw [hT0]
          simp only [leavesM]
          rw [show ({j} : Multiset ℕ) = j ::ₘ 0 from rfl]
          rw [show (e ::ₘ (0 : Multiset ℕ)) = e ::ₘ 0 from rfl]
          exact Multiset.cons_swap j e 0
        · exact InsResT.noConfusion h
        · exact InsResT.noConfusion h
      | twig cs =>
        rw [insT_twig_eq _ _ _ _ _ _ _ hd] at h
        rcases hi1 : insT epos ext fuel (cs (Quadrant.from_comparison (epos e) c))
            ((Quadrant.from_comparison (epos e) c).apply_offset c ext d) (d + 1) e
          with A2 | A2 | _ <;> rw [hi1] at h
        · cases h
          have h1 := ih _ _ _ _ _ hi1
          have h2 := leavesM_twig_update cs (Quadrant.from_comparison (epos e) c) A2
          rw [h1] at h2
          have h3 : leavesM (QTree.twig (Function.update cs
              (Quadrant.from_comparison (epos e) c) A2)) +
              leavesM (cs (Quadrant.from_comparison (epos e) c)) =
              (e ::ₘ leavesM (QTree.twig cs)) +
              leavesM (cs (Quadrant.from_comparison (epos e) c)) := by
            rw [h2]
            rw [Multiset.cons_add, Multiset.add_cons]
          exact add_right_cancel h3
        · exact InsResT.noConfusion h
        · exact InsResT.noConfusion h

/-- A successful algebraic insertion at depth `d` keeps the subtree height
within the depth budget. -/
theorem insT_htT (epos : ℕ → Point2) (ext : SimFloat) :
    ∀ (fuel : ℕ) (A : QTree) (c : Point2) (d e : ℕ) (A' : QTree),
      insT epos ext fuel A c d e = .okT A' →
      htT A + d ≤ MAX_DEPTH + 2 → htT A' + d ≤ MAX_DEPTH + 2 := by
  intro fuel
  induction fuel with
  | zero =>
    intro A c d e A' h
    rw [insT] at h
    exact InsResT.noConfusion h
  | succ fuel ih =>
    intro A c d e A' h hht
    by_cases hd : d > MAX_DEPTH
    · rw [insT_depth _ _ _ _ _ _ _ hd] at h
      exact InsResT.noConfusion h
    · cases A with
      | empty =>
        rw [insT_empty_eq _ _ _ _ _ _ hd] at h
        cases h
        simpa [htT] using hht
      | leaf j =>
        rw [insT_leaf_eq _ _ _ _ _ _ _ hd] at h
        rcases hi1 : insT epos ext fuel (.twig fun _ => .empty) c d e with A2 | A2 | _ <;>
          rw [hi1] at h
        · have hT0 : htT (.twig fun _ => .empty) + d ≤ MAX_DEPTH + 2 := by
            show 1 + max (max 1 1) (max 1 1) + d ≤ MAX_DEPTH + 2
            rw [MAX_DEPTH] at hd ⊢
            omega
          have h1 := ih _ _ _ _ _ hi1 hT0
          exact ih _ _ _ _ _ h h1
        · exact InsResT.noConfusion h
        · exact InsResT.noConfusion h
      | twig cs =>
        rw [insT_twig_eq _ _ _ _ _ _ _ hd] at h
        rcases hi1 : insT epos ext fuel (cs (Quadrant.from_comparison (epos e) c))
            ((Quadrant.from_comparison (epos e) c).apply_offset c ext d) (d + 1) e
          with A2 | A2 | _ <;> rw [hi1] at h
        · cases h
          have hb : ∀ q : Quadrant, htT (cs q) + (d + 1) ≤ MAX_DEPTH + 2 := by
            intro q
            have : htT (QTree.twig cs) = 1 + max (max (htT (cs .NW)) (htT (cs .SW)))
                (max (htT (cs .NE)) (htT (cs .SE))) := rfl
            rw [this] at hht
            cases q <;> omega
          have h1 := ih _ _ _ _ _ hi1 (hb _)
          have hup : ∀ q : Quadrant,
              htT (Function.update cs (Quadrant.from_comparison (epos e) c) A2 q) +
                (d + 1) ≤ MAX_DEPTH + 2 := by
            intro q
            by_cases hq : q = Quadrant.from_comparison (epos e) c
            · rw [hq, Function.update_same]
              exact h1
            · rw [Function.update_noteq hq]
              exact hb q
          have hs : htT (QTree.twig (Function.update cs
              (Quadrant.from_comparison (epos e) c) A2)) =
              1 + max (max (htT (Function.update cs
                (Quadrant.from_comparison (epos e) c) A2 .NW))
                (htT (Function.update cs (Quadrant.from_comparison (epos e) c) A2 .SW)))
              (max (htT (Function.update cs (Quadrant.from_comparison (epos e) c) A2 .NE))
                (htT (Function.update cs (Quadrant.from_comparison (epos e) c) A2 .SE))) := rfl
          rw [hs]
          have hNW := hup .NW
          have hSW := hup .SW
          have hNE := hup .NE
          have hSE := hup .SE
          omega
        · exact InsResT.noConfusion h
        · exact InsResT.noConfusion h

theorem rectHalf_succ (ext : SimFloat) (d : ℕ) :
    (0.5 : SimFloat) * ext * (0.5 : SimFloat) ^ d = rectHalf ext (d + 1) := by
  unfold rectHalf
  rw [pow_succ]
  ring

theorem rectHalf_double (ext : SimFloat) (d : ℕ) :
    rectHalf ext d = 2 * rectHalf ext (d + 1) := by
  unfold rectHalf
  rw [pow_succ]
  ring

theorem apply_offset_NW (c : Point2) (ext : SimFloat) (d : ℕ) :
    Quadrant.apply_offset .NW c ext d =
      ⟨c.x - rectHalf ext (d + 1), c.y + rectHalf ext (d + 1)⟩ := by
  unfold Quadrant.apply_offset
  rw [rectHalf_succ]

theorem apply_offset_SW (c : Point2) (ext : SimFloat) (d : ℕ) :
    Quadrant.apply_offset .SW c ext d =
      ⟨c.x - rectHalf ext (d + 1), c.y - rectHalf ext (d + 1)⟩ := by
  unfold Quadrant.apply_offset
  rw [rectHalf_succ]

theorem apply_offset_NE (c : Point2) (ext : SimFloat) (d : ℕ) :
    Quadrant.apply_offset .NE c ext d =
      ⟨c.x + rectHalf ext (d + 1), c.y + rectHalf ext (d + 1)⟩ := by
  unfold Quadrant.apply_offset
  rw [rectHalf_succ]

theorem apply_offset_SE (c : Point2) (ext : SimFloat) (d : ℕ) :
    Quadrant.apply_offset .SE c ext d =
      ⟨c.x + rectHalf ext (d + 1), c.y - rectHalf ext (d + 1)⟩ := by
  unfold Quadrant.apply_offset
  rw [rectHalf_succ]

/-- Descending into the quadrant chosen by `from_comparison` keeps the point
inside the (closed) child rectangle. -/
theorem inRect_descend (ext : SimFloat) (p c : Point2) (d : ℕ)
    (h : inRect ext p c d) :
    inRect ext p ((Quadrant.from_comparison p c).apply_offset c ext d) (d + 1) := by
  obtain ⟨hx, hy⟩ := h
  rw [abs_le] at hx hy
  have hrh := rectHalf_double ext d
  unfold Quadrant.from_comparison
  rcases lt_or_le p.x c.x with hxc | hxc <;> rcases lt_or_le p.y c.y with hyc | hyc
  · rw [if_pos hxc, if_pos hyc, apply_offset_SW]
    constructor <;> · rw [abs_le]; constructor <;> · simp only []; linarith
  · rw [if_pos hxc, if_neg (not_lt.mpr hyc), apply_offset_NW]
    constructor <;> · rw [abs_le]; constructor <;> · simp only []; linarith
  · rw [if_neg (not_lt.mpr hxc), if_pos hyc, apply_offset_SE]
    constructor <;> · rw [abs_le]; constructor <;> · simp only []; linarith
  · rw [if_neg (not_lt.mpr hxc), if_neg (not_lt.mpr hyc), apply_offset_NE]
    constructor <;> · rw [abs_le]; constructor <;> · simp only []; linarith

theorem mem_leafGeomsT_twig {ext : SimFloat} {cs : Quadrant → QTree} {c : Point2}
    {d : ℕ} {x : ℕ × Point2 × ℕ} :
    x ∈ leafGeomsT ext (.twig cs) c d ↔
      ∃ q : Quadrant,
        x ∈ leafGeomsT ext (cs q) (Quadrant.apply_offset q c ext d) (d + 1) := by
  show x ∈ _ ++ _ ++ _ ++ _ ↔ _
  simp only [List.mem_append]
  constructor
  · rintro (((h | h) | h) | h)
    · exact ⟨.NW, h⟩
    · exact ⟨.SW, h⟩
    · exact ⟨.NE, h⟩
    · exact ⟨.SE, h⟩
  · rintro ⟨q, h⟩
    cases q with
    | NW => exact Or.inl (Or.inl (Or.inl h))
    | SW => exact Or.inl (Or.inl (Or.inr h))
    | NE => exact Or.inl (Or.inr h)
    | SE => exact Or.inr h

/-- A successful algebraic insertion of an element that lies in the node's
rectangle preserves the property that every leaf's rectangle contains the
position of the element it references. -/
theorem insT_geoms (epos : ℕ → Point2) (ext : SimFloat) :
    ∀ (fuel : ℕ) (A : QTree) (c : Point2) (d e : ℕ) (A' : QTree),
      insT epos ext fuel A c d e = .okT A' →
      (∀ x ∈ leafGeomsT ext A c d, inRect ext (epos x.1) x.2.1 x.2.2) →
      inRect ext (epos e) c d →
      ∀ x ∈ leafGeomsT ext A' c d, inRect ext (epos x.1) x.2.1 x.2.2 := by
  intro fuel
  induction fuel with
  | zero =>
    intro A c d e A' h
    rw [insT] at h
    exact InsResT.noConfusion h
  | succ fuel ih =>
    intro A c d e A' h hall he
    by_cases hd : d > MAX_DEPTH
    · rw [insT_depth _ _ _ _ _ _ _ hd] at h
      exact InsResT.noConfusion h
    · cases A with
      | empty =>
        rw [insT_empty_eq _ _ _ _ _ _ hd] at h
        cases h
        intro x hx
        have : x = (e, c, d) := by
          have : x ∈ [(e, c, d)] := hx
          simpa using this
        rw [this]
        exact he
      | leaf j =>
        rw [insT_leaf_eq _ _ _ _ _ _ _ hd] at h
        rcases hi1 : insT epos ext fuel (.twig fun _ => .empty) c d e with A2 | A2 | _ <;>
          rw [hi1] at h
        · have hT0 : ∀ x ∈ leafGeomsT ext (.twig fun _ => .empty) c d,
              inRect ext (epos x.1) x.2.1 x.2.2 := by
            intro x hx
            rw [mem_leafGeomsT_twig] at hx
            obtain ⟨q, hq⟩ := hx
            exact absurd hq (by cases q <;> simp [leafGeomsT])
          have hA2 := ih _ _ _ _ _ hi1 hT0 he
          have hj : inRect ext (epos j) c d := by
            have : (j, c, d) ∈ leafGeomsT ext (.leaf j) c d := by
              simp [leafGeomsT]
            exact hall (j, c, d) this
          exact ih _ _ _ _ _ h hA2 hj
        · exact InsResT.noConfusion h
        · exact InsResT.noConfusion h
      | twig cs =>
        rw [insT_twig_eq _ _ _ _ _ _ _ hd] at h
        rcases hi1 : insT epos ext fuel (cs (Quadrant.from_comparison (epos e) c))
            ((Quadrant.from_comparison (epos e) c).apply_offset c ext d) (d + 1) e
          with A2 | A2 | _ <;> rw [hi1] at h
        · cases h
          have hsub : ∀ x ∈ leafGeomsT ext (cs (Quadrant.from_comparison (epos e) c))
              ((Quadrant.from_comparison (epos e) c).apply_offset c ext d) (d + 1),
              inRect ext (epos x.1) x.2.1 x.2.2 := by
            intro x hx
            exact hall x (mem_leafGeomsT_twig.mpr ⟨_, hx⟩)
          have hA2 := ih _ _ _ _ _ hi1 hsub (inRect_descend ext (epos e) c d he)
          intro x hx
          rw [mem_leafGeomsT_twig] at hx
          obtain ⟨q, hq⟩ := hx
          by_cases hqe : q = Quadrant.from_comparison (epos e) c
          · subst hqe
            rw [Function.update_same] at hq
            exact hA2 x hq
          · rw [Function.update_noteq hqe] at hq
            exact hall x (mem_leafGeomsT_twig.mpr ⟨q, hq⟩)
        · exact InsResT.noConfusion h
        · exact InsResT.noConfusion h

/-- `pathAgree ext p1 p2 c d n`: for `n` successive subdivision levels
starting from a node centered at `c` at depth `d`, the two positions `p1` and
`p2` are classified into the same quadrant (following `p1`'s descent path). -/
def pathAgree (ext : SimFloat) (p1 p2 : Point2) : Point2 → ℕ → ℕ → Prop
  | _, _, 0 => True
  | c, d, n + 1 =>
    Quadrant.from_comparison p1 c = Quadrant.from_comparison p2 c ∧
      pathAgree ext p1 p2 ((Quadrant.from_comparison p1 c).apply_offset c ext d)
        (d + 1) n

theorem pathAgree_symm (ext : SimFloat) (p1 p2 : Point2) :
    ∀ (n : ℕ) (c : Point2) (d : ℕ), pathAgree ext p1 p2 c d n →
      pathAgree ext p2 p1 c d n := by
  intro n
  induction n with
  | zero => intro c d _; trivial
  | succ n ih =>
    intro c d h
    obtain ⟨hq, ht⟩ := h
    refine ⟨hq.symm, ?_⟩
    rw [← hq]
    exact ih _ _ ht

theorem pathAgree_of_eq (ext : SimFloat) (p1 p2 : Point2) (hp : p1 = p2) :
    ∀ (n : ℕ) (c : Point2) (d : ℕ), pathAgree ext p1 p2 c d n := by
  subst hp
  intro n
  induction n with
  | zero => intro c d; trivial
  | succ n ih => intro c d; exact ⟨rfl, ih _ _⟩

/-- Inserting into a leaf an element that keeps agreeing with the leaf's
element on the quadrant choice all the way to the depth bound ends in the
depth-exceeded error, and the resulting subtree has no leaves at all (every
intermediate leaf was subdivided away and the two pending elements were never
re-placed). -/
theorem insT_leaf_same_path_err (epos : ℕ → Point2) (ext : SimFloat) :
    ∀ (fuel : ℕ) (c : Point2) (d i j : ℕ),
      d ≤ MAX_DEPTH →
      2 * (MAX_DEPTH + 2 - d) + 1 ≤ fuel →
      pathAgree ext (epos i) (epos j) c d (MAX_DEPTH - d) →
      ∃ A', insT epos ext fuel (.leaf j) c d i = .errT A' ∧
        leavesM A' = 0 ∧ htT A' + d ≤ MAX_DEPTH + 2 := by
  intro fuel
  induction fuel using Nat.strong_induction_on with
  | _ fuel ih =>
    intro c d i j hdle hfuel hagree
    have hd : ¬d > MAX_DEPTH := by omega
    have hfuel5 : 5 ≤ fuel := by
      rw [MAX_DEPTH] at hdle hfuel
      omega
    obtain ⟨f1, rfl⟩ : ∃ f1, fuel = f1 + 1 := ⟨fuel - 1, by omega⟩
    obtain ⟨f2, rfl⟩ : ∃ f2, f1 = f2 + 1 := ⟨f1 - 1, by omega⟩
    obtain ⟨f3, rfl⟩ : ∃ f3, f2 = f3 + 1 := ⟨f2 - 1, by omega⟩
    rw [insT_leaf_eq _ _ _ _ _ _ _ hd]
    rw [insT_twig_eq _ _ _ _ _ _ _ hd]
    by_cases hd64 : d = MAX_DEPTH
    · -- the child write at depth d+1 hits the depth guard immediately
      have hstep : insT epos ext (f3 + 1)
          ((fun _ => QTree.empty) (Quadrant.from_comparison (epos i) c))
          ((Quadrant.from_comparison (epos i) c).apply_offset c ext d) (d + 1) i =
          .errT .empty := insT_depth _ _ _ _ _ _ _ (by omega)
      rw [hstep]
      refine ⟨.twig fun _ => .empty, ?_, rfl, ?_⟩
      · show InsResT.errT (QTree.twig (Function.update (fun _ => QTree.empty)
          (Quadrant.from_comparison (epos i) c) QTree.empty)) =
          InsResT.errT (QTree.twig fun _ => QTree.empty)
        rw [show Function.update (fun _ => QTree.empty)
          (Quadrant.from_comparison (epos i) c) QTree.empty =
          (fun _ : Quadrant => QTree.empty) from Function.update_eq_self _ _]
      · show 1 + max (max 1 1) (max 1 1) + d ≤ MAX_DEPTH + 2
        omega
    · -- the new element is written one level down, then the old element
      -- reaches it and the recursion continues
      have hd1 : ¬d + 1 > MAX_DEPTH := by omega
      have hstep : insT epos ext (f3 + 1)
          ((fun _ => QTree.empty) (Quadrant.from_comparison (epos i) c))
          ((Quadrant.from_comparison (epos i) c).apply_offset c ext d) (d + 1) i =
          .okT (.leaf i) := insT_empty_eq _ _ _ _ _ _ hd1
      rw [hstep]
      have hsteps : MAX_DEPTH - d = (MAX_DEPTH - (d + 1)) + 1 := by omega
      rw [hsteps] at hagree
      obtain ⟨hq, htail⟩ := hagree
      show ∃ A', insT epos ext (f3 + 1 + 1)
          (.twig (Function.update (fun _ => QTree.empty)
            (Quadrant.from_comparison (epos i) c) (.leaf i))) c d j = .errT A' ∧
          leavesM A' = 0 ∧ htT A' + d ≤ MAX_DEPTH + 2
      rw [insT_twig_eq _ _ _ _ _ _ _ hd]
      rw [← hq, Function.update_same]
      obtain ⟨A3, hA3, hA3leaves, hA3ht⟩ :=
        ih (f3 + 1) (by omega)
          ((Quadrant.from_comparison (epos i) c).apply_offset c ext d) (d + 1) j i
          (by omega) (by rw [MAX_DEPTH] at *; omega)
          (pathAgree_symm ext (epos i) (epos j) _ _ _ htail)
      rw [hA3]
      refine ⟨.twig (Function.update (fun _ => QTree.empty)
        (Quadrant.from_comparison (epos i) c) A3), ?_, ?_, ?_⟩
      · show InsResT.errT (QTree.twig (Function.update (Function.update
          (fun _ => QTree.empty) (Quadrant.from_comparison (epos i) c) (QTree.leaf i))
          (Quadrant.from_comparison (epos i) c) A3)) = _
        rw [Function.update_idem]
      · cases hcq : Quadrant.from_comparison (epos i) c <;>
          · simp only [leavesM, Function.update]
            simp [hA3leaves, leavesM]
      · cases hcq : Quadrant.from_comparison (epos i) c <;>
          · show htT _ + d ≤ MAX_DEPTH + 2
            simp only [htT, Function.update]
            simp
            omega

/-- Under a denotation, the concrete leaf-geometry observation computes the
algebraic one (given enough fuel for the subtree height). -/
theorem denotes_leafGeoms {U : Type} {nodes : List (Option (QuadtreeNode U))}
    (ext : SimFloat) :
    ∀ {idx : ℕ} {A : QTree} {S : Finset ℕ}, Denotes nodes idx A S →
      ∀ (fuel : ℕ) (c : Point2) (d : ℕ), htT A ≤ fuel →
        leafGeoms ext nodes fuel idx c d = leafGeomsT ext A c d := by
  intro idx A S h
  induction h with
  | empty idx hn =>
    intro fuel c d hf
    obtain ⟨f, rfl⟩ : ∃ f, fuel = f + 1 := ⟨fuel - 1, by
      have : htT QTree.empty = 1 := rfl
      omega⟩
    rw [leafGeoms, hn]
    rfl
  | leaf idx e par u hn =>
    intro fuel c d hf
    obtain ⟨f, rfl⟩ : ∃ f, fuel = f + 1 := ⟨fuel - 1, by
      have : htT (QTree.leaf e) = 1 := rfl
      omega⟩
    rw [leafGeoms, hn]
    rfl
  | twig idx k par u cs Ss hn hch hdisj hidx ih =>
    intro fuel c d hf
    have hcb : ∀ q : Quadrant, htT (cs q) + 1 ≤ fuel := by
      intro q
      have hexp : htT (QTree.twig cs) = 1 + max (max (htT (cs .NW)) (htT (cs .SW)))
          (max (htT (cs .NE)) (htT (cs .SE))) := rfl
      rw [hexp] at hf
      cases q <;> omega
    obtain ⟨f, rfl⟩ : ∃ f, fuel = f + 1 := ⟨fuel - 1, by
      have := hcb .NW
      omega⟩
    rw [leafGeoms, hn]
    have hNW : leafGeoms ext nodes f k ⟨c.x - (0.5 * ext * (0.5 : SimFloat) ^ d),
        c.y + (0.5 * ext * (0.5 : SimFloat) ^ d)⟩ (d + 1) =
        leafGeomsT ext (cs .NW) ⟨c.x - (0.5 * ext * (0.5 : SimFloat) ^ d),
          c.y + (0.5 * ext * (0.5 : SimFloat) ^ d)⟩ (d + 1) :=
      ih .NW f _ (d + 1) (by have := hcb .NW; omega)
    have hSW : leafGeoms ext nodes f (k + 1) ⟨c.x - (0.5 * ext * (0.5 : SimFloat) ^ d),
        c.y - (0.5 * ext * (0.5 : SimFloat) ^ d)⟩ (d + 1) =
        leafGeomsT ext (cs .SW) ⟨c.x - (0.5 * ext * (0.5 : SimFloat) ^ d),
          c.y - (0.5 * ext * (0.5 : SimFloat) ^ d)⟩ (d + 1) :=
      ih .SW f _ (d + 1) (by have := hcb .SW; omega)
    have hNE : leafGeoms ext nodes f (k + 2) ⟨c.x + (0.5 * ext * (0.5 : SimFloat) ^ d),
        c.y + (0.5 * ext * (0.5 : SimFloat) ^ d)⟩ (d + 1) =
        leafGeomsT ext (cs .NE) ⟨c.x + (0.5 * ext * (0.5 : SimFloat) ^ d),
          c.y + (0.5 * ext * (0.5 : SimFloat) ^ d)⟩ (d + 1) :=
      ih .NE f _ (d + 1) (by have := hcb .NE; omega)
    have hSE : leafGeoms ext nodes f (k + 3) ⟨c.x + (0.5 * ext * (0.5 : SimFloat) ^ d),
        c.y - (0.5 * ext * (0.5 : SimFloat) ^ d)⟩ (d + 1) =
        leafGeomsT ext (cs .SE) ⟨c.x + (0.5 * ext * (0.5 : SimFloat) ^ d),
          c.y - (0.5 * ext * (0.5 : SimFloat) ^ d)⟩ (d + 1) :=
      ih .SE f _ (d + 1) (by have := hcb .SE; omega)
    show leafGeoms ext nodes f k _ (d + 1) ++
        leafGeoms ext nodes f (k + 1) _ (d + 1) ++
        leafGeoms ext nodes f (k + 2) _ (d + 1) ++
        leafGeoms ext nodes f (k + 3) _ (d + 1) = _
    rw [hNW, hSW, hNE, hSE]
    show _ = leafGeomsT ext (cs .NW) (Quadrant.apply_offset .NW c ext d) (d + 1) ++
        leafGeomsT ext (cs .SW) (Quadrant.apply_offset .SW c ext d) (d + 1) ++
        leafGeomsT ext (cs .NE) (Quadrant.apply_offset .NE c ext d) (d + 1) ++
        leafGeomsT ext (cs .SE) (Quadrant.apply_offset .SE c ext d) (d + 1)
    rw [apply_offset_NW, apply_offset_SW, apply_offset_NE, apply_offset_SE,
      ← rectHalf_succ]

/-- The first components of the leaf geometry list form exactly the leaf
multiset. -/
theorem leafGeomsT_map_fst (ext : SimFloat) :
    ∀ (A : QTree) (c : Point2) (d : ℕ),
      (((leafGeomsT ext A c d).map Prod.fst : List ℕ) : Multiset ℕ) = leavesM A := by
  intro A
  induction A with
  | empty => intro c d; rfl
  | leaf e => intro c d; rfl
  | twig cs ih =>
    intro c d
    have hsplit : (((leafGeomsT ext (.twig cs) c d).map Prod.fst : List ℕ) :
        Multiset ℕ) =
        (((leafGeomsT ext (cs .NW) (Quadrant.apply_offset .NW c ext d) (d + 1)).map
          Prod.fst : List ℕ) : Multiset ℕ) +
        (((leafGeomsT ext (cs .SW) (Quadrant.apply_offset .SW c ext d) (d + 1)).map
          Prod.fst : List ℕ) : Multiset ℕ) +
        (((leafGeomsT ext (cs .NE) (Quadrant.apply_offset .NE c ext d) (d + 1)).map
          Prod.fst : List ℕ) : Multiset ℕ) +
        (((leafGeomsT ext (cs .SE) (Quadrant.apply_offset .SE c ext d) (d + 1)).map
          Prod.fst : List ℕ) : Multiset ℕ) := by
      show ((((leafGeomsT ext (cs .NW) (Quadrant.apply_offset .NW c ext d) (d + 1) ++
          leafGeomsT ext (cs .SW) (Quadrant.apply_offset .SW c ext d) (d + 1) ++
          leafGeomsT ext (cs .NE) (Quadrant.apply_offset .NE c ext d) (d + 1) ++
          leafGeomsT ext (cs .SE) (Quadrant.apply_offset .SE c ext d) (d + 1)).map
            Prod.fst) : List ℕ) : Multiset ℕ) = _
      rw [List.map_append, List.map_append, List.map_append]
      rfl
    rw [hsplit, ih .NW, ih .SW, ih .NE, ih .SE]
    rfl

theorem inRect_root (ext : SimFloat) (p : Point2) (hx : |p.x| ≤ ext)
    (hy : |p.y| ≤ ext) : inRect ext p ⟨0, 0⟩ 0 := by
  unfold inRect rectHalf
  constructor <;> simp only [pow_zero, mul_one] <;> simpa using (by assumption)

theorem range_union_Ico {a b : ℕ} (h : a ≤ b) :
    Finset.range a ∪ Finset.Ico a b = Finset.range b := by
  ext x
  simp only [Finset.mem_union, Finset.mem_range, Finset.mem_Ico]
  omega

/-- One successful `insert` step preserves the full C5 invariant: there is
an algebraic view of the whole arena whose leaves are exactly the element
indices inserted so far, every leaf rectangle contains its element's
position, and the view's height stays within the depth budget. -/
theorem insert_step [Positioned T] [Inhabited U] (t : Quadtree T U) (el : T)
    (A : QTree)
    (hD : Denotes t.nodes 0 A (Finset.range t.nodes.length))
    (hok : (t.insert el).1 = InsertOutcome.ok)
    (hleaves : leavesM A = Multiset.range t.elements.length)
    (hgeom : ∀ x ∈ leafGeomsT t.extent A ⟨0, 0⟩ 0,
      inRect t.extent (t.elemPos x.1) x.2.1 x.2.2)
    (hht : htT A ≤ MAX_DEPTH + 2) :
    ∃ A2, Denotes (t.insert el).2.nodes 0 A2
        (Finset.range (t.insert el).2.nodes.length) ∧
      (t.insert el).2.elements.length = t.elements.length + 1 ∧
      (t.insert el).2.extent = t.extent ∧
      leavesM A2 = Multiset.range (t.elements.length + 1) ∧
      (∀ x ∈ leafGeomsT t.extent A2 ⟨0, 0⟩ 0,
        inRect t.extent ((t.insert el).2.elemPos x.1) x.2.1 x.2.2) ∧
      htT A2 ≤ MAX_DEPTH + 2 := by
  by_cases hb : |(Positioned.position el).x| > t.extent ∨
      |(Positioned.position el).y| > t.extent
  · rw [insert_out_of_bounds_panics t el hb] at hok
    exact absurd hok (by simp)
  · rw [insert_eq_of_inbounds t el hb] at hok ⊢
    have hDp : Denotes (pushElem t el).nodes 0 A
        (Finset.range (pushElem t el).nodes.length) := hD
    have hcorr := corr INSERT_FUEL (pushElem t el) 0 0 ⟨0, 0⟩ 0 t.elements.length A
      (Finset.range (pushElem t el).nodes.length) hDp
    rcases hres : insT (pushElem t el).elemPos (pushElem t el).extent INSERT_FUEL A
        ⟨0, 0⟩ 0 t.elements.length with A2 | A2 | _
    · obtain ⟨t2, hcon2, hpost⟩ := hcorr.1 A2 hres
      rw [hcon2] at hok ⊢
      have hpres := insert_at_node_preserves INSERT_FUEL (pushElem t el) 0 0 ⟨0, 0⟩ 0
        t.elements.length t2 (Or.inl hcon2)
      have hext2 : t2.extent = t.extent := hpres.1
      have helen2 : t2.elements.length = t.elements.length + 1 := by
        rw [hpres.2.1]
        simp [pushElem]
      refine ⟨A2, ?_, helen2, hext2, ?_, ?_, ?_⟩
      · have hd2 := hpost.1
        rw [range_union_Ico hpost.2.1] at hd2
        exact hd2
      · rw [insT_leavesM _ _ _ _ _ _ _ _ hres, hleaves, Multiset.range_succ]
      · have hnewpos : (pushElem t el).elemPos t.elements.length =
            Positioned.position el := pushElem_elemPos_last t el
        have hnewrect : inRect (pushElem t el).extent
            ((pushElem t el).elemPos t.elements.length) ⟨0, 0⟩ 0 := by
          rw [hnewpos]
          push_neg at hb
          exact inRect_root t.extent _ hb.1 hb.2
        have hold : ∀ x ∈ leafGeomsT (pushElem t el).extent A ⟨0, 0⟩ 0,
            inRect (pushElem t el).extent ((pushElem t el).elemPos x.1)
              x.2.1 x.2.2 := by
          intro x hx
          have hx1 : x.1 < t.elements.length := by
            have hmem : x.1 ∈ ((leafGeomsT t.extent A ⟨0, 0⟩ 0).map Prod.fst :
                List ℕ) := List.mem_map_of_mem Prod.fst hx
            have : (x.1 : ℕ) ∈ (((leafGeomsT t.extent A ⟨0, 0⟩ 0).map Prod.fst :
                List ℕ) : Multiset ℕ) := by exact_mod_cast hmem
            rw [leafGeomsT_map_fst, hleaves, Multiset.mem_range] at this
            exact this
          have := hgeom x hx
          rwa [← pushElem_elemPos_old t el x.1 hx1] at this
        have hgeo2 := insT_geoms (pushElem t el).elemPos (pushElem t el).extent
          INSERT_FUEL A ⟨0, 0⟩ 0 t.elements.length A2 hres hold hnewrect
        intro x hx
        have h2 := hgeo2 x hx
        show inRect t.extent (t2.elemPos x.1) x.2.1 x.2.2
        rw [insert_at_node_elemPos (Or.inl hcon2) x.1]
        exact h2
      · exact insT_htT _ _ _ _ _ _ _ _ hres (by simpa using hht)
    · obtain ⟨t2, hcon2, _⟩ := hcorr.2.1 A2 hres
      rw [hcon2] at hok
      exact absurd hok (by simp)
    · have hcon2 := hcorr.2.2 hres
      rw [hcon2] at hok
      exact absurd hok (by simp)

/-- The C5 invariant carried through a whole list of successful insertions. -/
theorem insertList_inv [Positioned T] [Inhabited U] :
    ∀ (els : List T) (t : Quadtree T U) (A : QTree),
      Denotes t.nodes 0 A (Finset.range t.nodes.length) →
      (∀ o ∈ (Quadtree.insertList t els).1, o = InsertOutcome.ok) →
      leavesM A = Multiset.range t.elements.length →
      (∀ x ∈ leafGeomsT t.extent A ⟨0, 0⟩ 0,
        inRect t.extent (t.elemPos x.1) x.2.1 x.2.2) →
      htT A ≤ MAX_DEPTH + 2 →
      ∃ A2, Denotes (Quadtree.insertList t els).2.nodes 0 A2
          (Finset.range (Quadtree.insertList t els).2.nodes.length) ∧
        (Quadtree.insertList t els).2.elements.length =
          t.elements.length + els.length ∧
        (Quadtree.insertList t els).2.extent = t.extent ∧
        leavesM A2 = Multiset.range (t.elements.length + els.length) ∧
        (∀ x ∈ leafGeomsT t.extent A2 ⟨0, 0⟩ 0,
          inRect t.extent ((Quadtree.insertList t els).2.elemPos x.1) x.2.1 x.2.2) ∧
        htT A2 ≤ MAX_DEPTH + 2 := by
  intro els
  induction els with
  | nil =>
    intro t A hD _ hleaves hgeom hht
    exact ⟨A, hD, by simp [Quadtree.insertList], rfl,
      by simpa [Quadtree.insertList] using hleaves, hgeom, hht⟩
  | cons el rest ih =>
    intro t A hD hall hleaves hgeom hht
    have hunf : Quadtree.insertList t (el :: rest) =
        ((t.insert el).1 :: (Quadtree.insertList (t.insert el).2 rest).1,
          (Quadtree.insertList (t.insert el).2 rest).2) := rfl
    rw [hunf] at hall ⊢
    have hok : (t.insert el).1 = InsertOutcome.ok :=
      hall _ (List.mem_cons_self _ _)
    have htail : ∀ o ∈ (Quadtree.insertList (t.insert el).2 rest).1,
        o = InsertOutcome.ok := fun o ho => hall o (List.mem_cons_of_mem _ ho)
    obtain ⟨A2, hD2, helen2, hext2, hleaves2, hgeom2, hht2⟩ :=
      insert_step t el A hD hok hleaves hgeom hht
    obtain ⟨A3, hD3, helen3, hext3, hleaves3, hgeom3, hht3⟩ :=
      ih (t.insert el).2 A2 hD2 htail (by rw [helen2]; exact hleaves2)
        (by rw [hext2]; exact hgeom2) hht2
    refine ⟨A3, hD3, ?_, hext3.trans hext2, ?_, ?_, hht3⟩
    · rw [helen3, helen2]
      simp only [List.length_cons]
      omega
    · rw [hleaves3, helen2]
      have : t.elements.length + 1 + rest.length =
          t.elements.length + (el :: rest).length := by
        simp only [List.length_cons]
        omega
      rw [this]
    · intro x hx
      have hmem : x ∈ leafGeomsT (t.insert el).2.extent A3 ⟨0, 0⟩ 0 := by
        rw [hext2]
        exact hx
      have h3 := hgeom3 x hmem
      rw [hext2] at h3
      exact h3

/-- C5 (amended): for every list of elements with pairwise-distinct positions
inside the root extent, if every insertion into a fresh quadtree succeeds,
then the resulting tree has exactly one leaf per inserted element, the leaves
reference pairwise-distinct elements, and every leaf's node rectangle
(center and per-depth half-width, as recovered by the traversal geometry)
contains the position of the element it references.  The success proviso is
necessary: distinct points closer than `extent / 2^64` make insertion fail
with the depth error (see the counterexample theorem). -/
theorem insert_all_ok_distinct_leaves [Positioned T] [Inhabited U]
    (ext : SimFloat) (els : List T)
    (hdist : els.Pairwise (fun a b => Positioned.position a ≠ Positioned.position b))
    (hin : ∀ el ∈ els, |(Positioned.position el).x| ≤ ext ∧
      |(Positioned.position el).y| ≤ ext)
    (hok : ∀ o ∈ ((Quadtree.new T U ext).insertList els).1, o = InsertOutcome.ok) :
    (leafGeoms ext ((Quadtree.new T U ext).insertList els).2.nodes INSERT_FUEL 0
      ⟨0, 0⟩ 0).length = els.length ∧
    ((leafGeoms ext ((Quadtree.new T U ext).insertList els).2.nodes INSERT_FUEL 0
      ⟨0, 0⟩ 0).map Prod.fst).Nodup ∧
    (∀ x ∈ leafGeoms ext ((Quadtree.new T U ext).insertList els).2.nodes INSERT_FUEL 0
      ⟨0, 0⟩ 0,
      inRect ext (((Quadtree.new T U ext).insertList els).2.elemPos x.1)
        x.2.1 x.2.2) := by
  have hD0 : Denotes (Quadtree.new T U ext).nodes 0 .empty
      (Finset.range (Quadtree.new T U ext).nodes.length) := by
    show Denotes [none] 0 QTree.empty (Finset.range 1)
    rw [Finset.range_one]
    exact Denotes.empty 0 rfl
  obtain ⟨A2, hD2, helen2, hext2, hleaves2, hgeom2, hht2⟩ :=
    insertList_inv els (Quadtree.new T U ext) .empty hD0 hok rfl
      (by intro x hx; exact absurd hx (by simp [leafGeomsT]))
      (by show 1 ≤ MAX_DEPTH + 2; omega)
  have htrans := denotes_leafGeoms ext hD2 INSERT_FUEL ⟨0, 0⟩ 0
    (by rw [INSERT_FUEL]; rw [MAX_DEPTH] at hht2; omega)
  have hN : leavesM A2 = Multiset.range els.length := by
    simpa [Quadtree.new] using hleaves2
  have hmapfst : (((leafGeomsT ext A2 ⟨0, 0⟩ 0).map Prod.fst : List ℕ) :
      Multiset ℕ) = Multiset.range els.length := by
    rw [leafGeomsT_map_fst, hN]
  refine ⟨?_, ?_, ?_⟩
  · rw [htrans]
    have hlen : ((leafGeomsT ext A2 ⟨0, 0⟩ 0).map Prod.fst).length = els.length := by
      have := congrArg Multiset.card hmapfst
      rwa [Multiset.coe_card, Multiset.card_range] at this
    rwa [List.length_map] at hlen
  · rw [htrans]
    rw [← Multiset.coe_nodup, hmapfst]
    exact Multiset.nodup_range _
  · rw [htrans]
    exact hgeom2

/-- Witness for C5's amended theorem at two diagonal unit-mass bodies in a
radius-2 tree. -/
theorem insert_all_ok_distinct_leaves_witness :
    ([bSW, bNE].Pairwise
      (fun a b => Positioned.position a ≠ Positioned.position b)) ∧
    (∀ el ∈ [bSW, bNE], |(Positioned.position el).x| ≤ (2 : SimFloat) ∧
      |(Positioned.position el).y| ≤ (2 : SimFloat)) ∧
    (∀ o ∈ ((Quadtree.new Body Pseudobody 2).insertList [bSW, bNE]).1,
      o = InsertOutcome.ok) ∧
    ((leafGeoms 2 ((Quadtree.new Body Pseudobody 2).insertList [bSW, bNE]).2.nodes
      INSERT_FUEL 0 ⟨0, 0⟩ 0).length = 2 ∧
     ((leafGeoms 2 ((Quadtree.new Body Pseudobody 2).insertList [bSW, bNE]).2.nodes
      INSERT_FUEL 0 ⟨0, 0⟩ 0).map Prod.fst).Nodup ∧
     (∀ x ∈ leafGeoms 2 ((Quadtree.new Body Pseudobody 2).insertList [bSW, bNE]).2.nodes
      INSERT_FUEL 0 ⟨0, 0⟩ 0,
      inRect 2 (((Quadtree.new Body Pseudobody 2).insertList [bSW, bNE]).2.elemPos x.1)
        x.2.1 x.2.2)) := by
  have hdist : [bSW, bNE].Pairwise
      (fun a b => Positioned.position a ≠ Positioned.position b) := by
    simp only [List.pairwise_cons, List.mem_singleton]
    refine ⟨?_, by simp⟩
    intro b hb
    rw [hb]
    simp [bSW, bNE]
    intro hcontra
    norm_num at hcontra
  have hin : ∀ el ∈ [bSW, bNE], |(Positioned.position el).x| ≤ (2 : SimFloat) ∧
      |(Positioned.position el).y| ≤ (2 : SimFloat) := by
    intro el hel
    simp only [List.mem_cons, List.not_mem_nil, or_false] at hel
    rcases hel with hel | hel <;>
      (rw [hel]; constructor <;> norm_num [bSW, bNE])
  have houts : ((Quadtree.new Body Pseudobody 2).insertList [bSW, bNE]).1 =
      [InsertOutcome.ok, InsertOutcome.ok] := by
    norm_num [Quadtree.insertList, Quadtree.insert, Quadtree.new, bSW, bNE, INSERT_FUEL,
      Quadtree.insert_at_node, MAX_DEPTH, Quadtree.nodeAt, Quadtree.elemPos,
      setLeafIndex, Quadrant.from_comparison, Quadrant.apply_offset, Quadrant.toIdx]
  have hok : ∀ o ∈ ((Quadtree.new Body Pseudobody 2).insertList [bSW, bNE]).1,
      o = InsertOutcome.ok := by
    rw [houts]
    intro o ho
    simpa using ho
  have hmain := @insert_all_ok_distinct_leaves Body Pseudobody _ _ 2 [bSW, bNE]
    hdist hin hok
  exact ⟨hdist, hin, hok, hmain⟩

/-- One step of `pathAgree`, packaged so concrete instances can be built by
rewriting with computed quadrants. -/
theorem pathAgree_step (ext : SimFloat) (p1 p2 c : Point2) (d n : ℕ)
    (h1 : Quadrant.from_comparison p1 c = Quadrant.from_comparison p2 c)
    (h2 : pathAgree ext p1 p2 ((Quadrant.from_comparison p1 c).apply_offset c ext d)
      (d + 1) n) :
    pathAgree ext p1 p2 c d (n + 1) :=
  ⟨h1, h2⟩

/-- A body at the origin and a body at `(2⁻¹⁰⁰, 0)` choose the same (south-west)
quadrant at every node on the diagonal dyadic chain of centers
`(2·2⁻ᵏ, 2·2⁻ᵏ)` as long as the center stays strictly above `2⁻¹⁰⁰`. -/
theorem pathAgree_dyadic :
    ∀ (n k : ℕ), 1 ≤ k → k + n ≤ 101 →
      pathAgree 2 ⟨(1/2 : SimFloat) ^ 100, 0⟩ ⟨0, 0⟩
        ⟨rectHalf 2 k, rectHalf 2 k⟩ k n := by
  intro n
  induction n with
  | zero => intro k _ _; trivial
  | succ n ih =>
    intro k hk1 hkn
    have hrh : rectHalf 2 k = 2 * (1/2 : SimFloat) ^ k := by
      unfold rectHalf
      norm_num
    have hpow : ((1/2 : SimFloat) ^ 100) ≤ (1/2 : SimFloat) ^ k :=
      pow_le_pow_of_le_one (by norm_num) (by norm_num) (by omega)
    have hhalfpos : (0 : SimFloat) < (1/2 : SimFloat) ^ k := by positivity
    have hlt : ((1/2 : SimFloat) ^ 100) < rectHalf 2 k := by
      rw [hrh]; linarith
    have hkpos : (0 : SimFloat) < rectHalf 2 k := by
      rw [hrh]; linarith
    have hq1 : Quadrant.from_comparison ⟨(1/2 : SimFloat) ^ 100, 0⟩
        ⟨rectHalf 2 k, rectHalf 2 k⟩ = .SW := by
      rw [Quadrant.from_comparison, if_pos hlt, if_pos hkpos]
    have hq2 : Quadrant.from_comparison (⟨0, 0⟩ : Point2)
        ⟨rectHalf 2 k, rectHalf 2 k⟩ = .SW := by
      rw [Quadrant.from_comparison, if_pos hkpos, if_pos hkpos]
    refine pathAgree_step 2 _ _ _ k n (by rw [hq1, hq2]) ?_
    rw [hq1, apply_offset_SW]
    show pathAgree 2 ⟨(1/2 : SimFloat) ^ 100, 0⟩ ⟨0, 0⟩
      ⟨rectHalf 2 k - rectHalf 2 (k + 1), rectHalf 2 k - rectHalf 2 (k + 1)⟩
      (k + 1) n
    have hcc : rectHalf 2 k - rectHalf 2 (k + 1) = rectHalf 2 (k + 1) := by
      rw [rectHalf_double 2 k]; ring
    rw [hcc]
    exact ih (k + 1) (by omega) (by omega)

/-- From the root of a radius-2 tree, the positions `(2⁻¹⁰⁰, 0)` and `(0, 0)`
agree on the chosen quadrant for 64 successive levels: NE once, then SW all
the way down. -/
theorem pathAgree_origin_eps :
    pathAgree 2 ⟨(1/2 : SimFloat) ^ 100, 0⟩ ⟨0, 0⟩ ⟨0, 0⟩ 0 64 := by
  have hx : ¬(((1/2 : SimFloat) ^ 100) < 0) := not_lt.mpr (by positivity)
  have hy : ¬((0 : SimFloat) < 0) := lt_irrefl 0
  have hq1 : Quadrant.from_comparison ⟨(1/2 : SimFloat) ^ 100, 0⟩
      (⟨0, 0⟩ : Point2) = .NE := by
    rw [Quadrant.from_comparison, if_neg hx, if_neg hy]
  have hq2 : Quadrant.from_comparison (⟨0, 0⟩ : Point2) (⟨0, 0⟩ : Point2) = .NE := by
    rw [Quadrant.from_comparison, if_neg hy, if_neg hy]
  have h64 : (64 : ℕ) = 63 + 1 := rfl
  rw [h64]
  refine pathAgree_step 2 _ _ _ 0 63 (by rw [hq1, hq2]) ?_
  rw [hq1, apply_offset_NE]
  show pathAgree 2 ⟨(1/2 : SimFloat) ^ 100, 0⟩ ⟨0, 0⟩
    ⟨0 + rectHalf 2 (0 + 1), 0 + rectHalf 2 (0 + 1)⟩ (0 + 1) 63
  simp only [zero_add]
  exact pathAgree_dyadic 63 1 (by omega) (by omega)

/-- A unit-mass body at the origin. -/
def bP0 : Body := { position := ⟨0, 0⟩, velocity := ⟨0, 0⟩, mass := 1, radius := 1 }

/-- A unit-mass body at `(2⁻¹⁰⁰, 0)`: distinct from the origin, but closer to
it than `extent · 2⁻⁶⁴`. -/
def bPeps : Body :=
  { position := ⟨(1/2 : SimFloat) ^ 100, 0⟩, velocity := ⟨0, 0⟩, mass := 1, radius := 1 }

/-- The radius-2 tree after inserting `bP0` into a fresh tree: a single root
leaf referencing element 0. -/
def tP1 : Quadtree Body Pseudobody :=
  { extent := 2
    nodes := [some { child_index := .element 0, parent_index := 0, data := default }]
    elements := [{ element := bP0, leaf_index := some 0 }] }

theorem insert_bP0_eq : (Quadtree.new Body Pseudobody 2).insert bP0 = (.ok, tP1) := by
  norm_num [Quadtree.insert, Quadtree.new, bP0, INSERT_FUEL, Quadtree.insert_at_node,
    MAX_DEPTH, Quadtree.nodeAt, setLeafIndex, tP1]

/-- Counterexample to C5 as stated: the two bodies `bP0` and `bPeps` have
pairwise-distinct positions inside the root extent, yet after inserting both
into a fresh radius-2 tree the tree does not contain 2 leaves — the second
insertion fails with the depth-exceeded error after subdividing 64 levels
deep (the points are closer than `extent · 2⁻⁶⁴`), and the resulting tree has
no leaves at all. -/
theorem insert_distinct_not_two_leaves :
    Positioned.position bP0 ≠ Positioned.position bPeps ∧
    (∀ el ∈ [bP0, bPeps], |(Positioned.position el).x| ≤ (2 : SimFloat) ∧
      |(Positioned.position el).y| ≤ (2 : SimFloat)) ∧
    ((Quadtree.new Body Pseudobody 2).insertList [bP0, bPeps]).1 =
      [InsertOutcome.ok, InsertOutcome.err] ∧
    (leafGeoms 2 ((Quadtree.new Body Pseudobody 2).insertList [bP0, bPeps]).2.nodes
      INSERT_FUEL 0 ⟨0, 0⟩ 0).length ≠ 2 := by
  -- the pushed-but-unplaced second element
  have hD1p : Denotes (pushElem tP1 bPeps).nodes 0 (.leaf 0) {0} :=
    Denotes.leaf 0 0 0 default rfl
  have hagree : pathAgree (pushElem tP1 bPeps).extent
      ((pushElem tP1 bPeps).elemPos 1) ((pushElem tP1 bPeps).elemPos 0)
      ⟨0, 0⟩ 0 (MAX_DEPTH - 0) := by
    show pathAgree 2 ⟨(1/2 : SimFloat) ^ 100, 0⟩ ⟨0, 0⟩ ⟨0, 0⟩ 0 64
    exact pathAgree_origin_eps
  obtain ⟨A', herr, hleav, hht⟩ :=
    insT_leaf_same_path_err (pushElem tP1 bPeps).elemPos (pushElem tP1 bPeps).extent
      INSERT_FUEL ⟨0, 0⟩ 0 1 0 (by rw [MAX_DEPTH]; omega)
      (by rw [MAX_DEPTH, INSERT_FUEL]; omega) hagree
  obtain ⟨t', hins, hpost⟩ :=
    (corr INSERT_FUEL (pushElem tP1 bPeps) 0 0 ⟨0, 0⟩ 0 1 (.leaf 0) {0} hD1p).2.1 A' herr
  have hb : ¬(|(Positioned.position bPeps).x| > tP1.extent ∨
      |(Positioned.position bPeps).y| > tP1.extent) := by
    push_neg
    constructor <;> norm_num [bPeps, tP1, abs_le]
  have h2 : tP1.insert bPeps = (.err, t') := by
    rw [insert_eq_of_inbounds tP1 bPeps hb,
      show tP1.elements.length = 1 from rfl, hins]
  have hlist : (Quadtree.new Body Pseudobody 2).insertList [bP0, bPeps] =
      ([InsertOutcome.ok, InsertOutcome.err], t') := by
    simp only [Quadtree.insertList, insert_bP0_eq, h2]
  refine ⟨?_, ?_, ?_, ?_⟩
  · intro h
    rw [show Positioned.position bP0 = (⟨0, 0⟩ : Point2) from rfl,
      show Positioned.position bPeps = (⟨(1/2 : SimFloat) ^ 100, 0⟩ : Point2) from rfl,
      Point2.mk.injEq] at h
    norm_num at h
  · intro el hel
    simp only [List.mem_cons, List.not_mem_nil, or_false] at hel
    rcases hel with hel | hel <;>
      (rw [hel]; constructor <;> norm_num [bP0, bPeps, abs_le])
  · rw [hlist]
  · rw [hlist]
    show (leafGeoms 2 t'.nodes INSERT_FUEL 0 ⟨0, 0⟩ 0).length ≠ 2
    obtain ⟨hden, -, -⟩ := hpost
    have hft : htT A' ≤ INSERT_FUEL := by
      rw [INSERT_FUEL]; rw [MAX_DEPTH] at hht; omega
    have htrans : leafGeoms 2 t'.nodes INSERT_FUEL 0 ⟨0, 0⟩ 0 =
        leafGeomsT 2 A' ⟨0, 0⟩ 0 :=
      denotes_leafGeoms 2 hden INSERT_FUEL ⟨0, 0⟩ 0 hft
    rw [htrans]
    have hcard := congrArg Multiset.card (leafGeomsT_map_fst 2 A' ⟨0, 0⟩ 0)
    rw [hleav, Multiset.coe_card, List.length_map, Multiset.card_zero] at hcard
    rw [hcard]
    omega

/-- Inserting two same-position elements into a fresh tree: the first insert
succeeds (the root slot is empty) and the second terminates with the
depth-exceeded `Err` — the recursion subdivides until the depth guard fires,
it does not run forever (the generous fuel of 200 is never exhausted). -/
theorem insert_same_position_err [Positioned T] [Inhabited U] (ext : SimFloat)
    (e1 e2 : T) (hpos : Positioned.position e1 = Positioned.position e2)
    (hx : |(Positioned.position e1).x| ≤ ext)
    (hy : |(Positioned.position e1).y| ≤ ext) :
    ((Quadtree.new T U ext).insert e1).1 = InsertOutcome.ok ∧
    ((((Quadtree.new T U ext).insert e1).2).insert e2).1 = InsertOutcome.err := by
  have hb1 : ¬(|(Positioned.position e1).x| > (Quadtree.new T U ext).extent ∨
      |(Positioned.position e1).y| > (Quadtree.new T U ext).extent) := by
    push_neg
    exact ⟨hx, hy⟩
  have hD0 : Denotes (pushElem (Quadtree.new T U ext) e1).nodes 0 .empty {0} :=
    Denotes.empty 0 rfl
  have hins1T : insT (pushElem (Quadtree.new T U ext) e1).elemPos
      (pushElem (Quadtree.new T U ext) e1).extent INSERT_FUEL .empty ⟨0, 0⟩ 0 0 =
      .okT (.leaf 0) := by
    rw [show INSERT_FUEL = 199 + 1 from rfl]
    exact insT_empty_eq _ _ 199 _ 0 0 (by rw [MAX_DEPTH]; omega)
  obtain ⟨t1, hins1, hpost1⟩ :=
    (corr INSERT_FUEL (pushElem (Quadtree.new T U ext) e1) 0 0 ⟨0, 0⟩ 0 0 .empty {0}
      hD0).1 (.leaf 0) hins1T
  obtain ⟨hext1, hlen1, helemAt1, -⟩ := insert_at_node_preserves INSERT_FUEL
    (pushElem (Quadtree.new T U ext) e1) 0 0 ⟨0, 0⟩ 0 0 t1 (Or.inl hins1)
  have h1 : (Quadtree.new T U ext).insert e1 = (.ok, t1) := by
    rw [insert_eq_of_inbounds _ e1 hb1,
      show (Quadtree.new T U ext).elements.length = 0 from rfl, hins1]
  obtain ⟨hden1, -, -⟩ := hpost1
  have hext1' : t1.extent = ext := by rw [hext1]; rfl
  have hlen1' : t1.elements.length = 1 := by rw [hlen1]; rfl
  have hAt0 : t1.elemAt 0 = some e1 := by
    rw [helemAt1 0]
    exact pushElem_elemAt_last (Quadtree.new T U ext) e1
  have hp0 : t1.elemPos 0 = Positioned.position e1 := by
    rw [elemPos_eq_elemAt, hAt0]
  have hb2 : ¬(|(Positioned.position e2).x| > t1.extent ∨
      |(Positioned.position e2).y| > t1.extent) := by
    push_neg
    rw [hext1', ← hpos]
    exact ⟨hx, hy⟩
  have hp1' : (pushElem t1 e2).elemPos 1 = Positioned.position e2 := by
    have h := pushElem_elemPos_last t1 e2
    rwa [hlen1'] at h
  have hp0' : (pushElem t1 e2).elemPos 0 = Positioned.position e1 := by
    rw [pushElem_elemPos_old t1 e2 0 (by rw [hlen1']; omega), hp0]
  have hagree : pathAgree (pushElem t1 e2).extent ((pushElem t1 e2).elemPos 1)
      ((pushElem t1 e2).elemPos 0) ⟨0, 0⟩ 0 (MAX_DEPTH - 0) :=
    pathAgree_of_eq _ _ _ (by rw [hp1', hp0']; exact hpos.symm) _ _ _
  obtain ⟨A', herr2, hleav2, hht2⟩ :=
    insT_leaf_same_path_err (pushElem t1 e2).elemPos (pushElem t1 e2).extent
      INSERT_FUEL ⟨0, 0⟩ 0 1 0 (by rw [MAX_DEPTH]; omega)
      (by rw [MAX_DEPTH, INSERT_FUEL]; omega) hagree
  have hD1 : Denotes (pushElem t1 e2).nodes 0 (.leaf 0)
      ({0} ∪ Finset.Ico (pushElem (Quadtree.new T U ext) e1).nodes.length
        t1.nodes.length) := hden1
  obtain ⟨t2, hins2, -⟩ :=
    (corr INSERT_FUEL (pushElem t1 e2) 0 0 ⟨0, 0⟩ 0 1 (.leaf 0) _ hD1).2.1 A' herr2
  have h2 : t1.insert e2 = (.err, t2) := by
    rw [insert_eq_of_inbounds t1 e2 hb2, hlen1', hins2]
  refine ⟨?_, ?_⟩
  · rw [h1]
  · rw [h1]
    show (t1.insert e2).1 = InsertOutcome.err
    rw [h2]

/-- C6: inserting a second element at exactly the same in-bounds coordinates
as an already-inserted element terminates and fails with the depth-exceeded
error (`Err`, the `DepthExceeded` condition at `MAX_DEPTH = 64`): the
subdivision recursion stops at the depth guard instead of recursing forever
(the model's fuel of 200, a strict upper bound on the source's call depth,
is never exhausted, so the `fuelOut` artifact is not reached). -/
theorem insert_same_position_depth_exceeded [Positioned T] [Inhabited U]
    (ext : SimFloat) (e1 e2 : T)
    (hpos : Positioned.position e1 = Positioned.position e2)
    (hx : |(Positioned.position e1).x| ≤ ext)
    (hy : |(Positioned.position e1).y| ≤ ext) :
    ((Quadtree.new T U ext).insert e1).1 = InsertOutcome.ok ∧
    ((((Quadtree.new T U ext).insert e1).2).insert e2).1 = InsertOutcome.err :=
  insert_same_position_err ext e1 e2 hpos hx hy

/-- Witness for C6 at two unit-mass bodies, both at the origin of a radius-2
tree. -/
theorem insert_same_position_depth_exceeded_witness :
    Positioned.position bP0 = Positioned.position bP0 ∧
    |(Positioned.position bP0).x| ≤ (2 : SimFloat) ∧
    |(Positioned.position bP0).y| ≤ (2 : SimFloat) ∧
    (((Quadtree.new Body Pseudobody 2).insert bP0).1 = InsertOutcome.ok ∧
     ((((Quadtree.new Body Pseudobody 2).insert bP0).2).insert bP0).1 =
       InsertOutcome.err) :=
  ⟨rfl, by norm_num [bP0], by norm_num [bP0],
    insert_same_position_depth_exceeded 2 bP0 bP0 rfl (by norm_num [bP0])
      (by norm_num [bP0])⟩

/-- Witness for C10: the second same-position insert above returns the error,
and the element store has nevertheless grown by one, the failing element sits
in the last slot, and the node arena has not shrunk. -/
theorem insert_err_no_rollback_witness :
    ((((Quadtree.new Body Pseudobody 2).insert bP0).2).insert bP0).1 =
      InsertOutcome.err ∧
    (((((Quadtree.new Body Pseudobody 2).insert bP0).2).insert bP0).2.elements.length =
      (((Quadtree.new Body Pseudobody 2).insert bP0).2).elements.length + 1 ∧
     ((((Quadtree.new Body Pseudobody 2).insert bP0).2).insert bP0).2.elemAt
       (((Quadtree.new Body Pseudobody 2).insert bP0).2).elements.length =
       some bP0 ∧
     (((Quadtree.new Body Pseudobody 2).insert bP0).2).nodes.length ≤
       ((((Quadtree.new Body Pseudobody 2).insert bP0).2).insert bP0).2.nodes.length) := by
  have h := (@insert_same_position_err Body Pseudobody _ _ 2 bP0 bP0 rfl
    (by norm_num [bP0]) (by norm_num [bP0])).2
  exact ⟨h, insert_err_no_rollback ((Quadtree.new Body Pseudobody 2).insert bP0).2 bP0 h⟩
